import Mathlib

/-!
Proxy diagnose: NO_PROXY matching, source conflicts and severity rollup.

A shallow embedding of `pkg/diagnose/proxy` (endpoints.go, conflicts.go,
reporter.go, probes.go, types.go, options.go).

Modelling conventions.

* A Go `string` is a list of Unicode code points (`Str`).  The functions of Go's
  `strings` package that the code calls are written out on such lists.
* `unicode.ToLower` treats ASCII inline, as Go does; the case table it consults
  above U+007F belongs to the Go runtime and is a parameter (`table`).
* `url.Parse`, the process environment, the configuration store and the network
  do not belong to the package either; they are parameters of the functions that
  call them.
-/

namespace Proxy

/-- A Go string, as its sequence of code points. -/
abbrev Str := List Char

/-! ## The parts of Go's `unicode` and `strings` packages that the code calls -/

namespace unicode

/-- Go's `unicode.IsSpace`: the Latin-1 spaces and the code points with the
White_Space property. -/
def IsSpace (r : Char) : Bool :=
  let n := r.toNat
  n == 0x09 || n == 0x0A || n == 0x0B || n == 0x0C || n == 0x0D || n == 0x20 ||
  n == 0x85 || n == 0xA0 || n == 0x1680 || (0x2000 ≤ n && n ≤ 0x200A) ||
  n == 0x2028 || n == 0x2029 || n == 0x202F || n == 0x205F || n == 0x3000

/-- Go's `unicode.ToLower`: `A`..`Z` are shifted to `a`..`z`, every other ASCII
rune is kept, and a rune above U+007F is looked up in the case table. -/
def ToLower (table : Char → Char) (r : Char) : Char :=
  if r.toNat ≤ 0x7F then
    if 0x41 ≤ r.toNat ∧ r.toNat ≤ 0x5A then Char.ofNat (r.toNat + 0x20) else r
  else table r

/-- Go's `unicode.ToUpper`: `a`..`z` are shifted to `A`..`Z`, every other ASCII
rune is kept, and a rune above U+007F is looked up in the case table. -/
def ToUpper (table : Char → Char) (r : Char) : Char :=
  if r.toNat ≤ 0x7F then
    if 0x61 ≤ r.toNat ∧ r.toNat ≤ 0x7A then Char.ofNat (r.toNat - 0x20) else r
  else table r

end unicode

namespace strings

/-- Go's `strings.ToLower`: every rune mapped through `unicode.ToLower`. -/
def ToLower (table : Char → Char) (s : Str) : Str :=
  s.map (unicode.ToLower table)

/-- Go's `strings.ToUpper`: every rune mapped through `unicode.ToUpper`. -/
def ToUpper (table : Char → Char) (s : Str) : Str :=
  s.map (unicode.ToUpper table)

/-- Go's `strings.TrimSpace`: leading and trailing white space removed. -/
def TrimSpace (s : Str) : Str :=
  (s.dropWhile unicode.IsSpace).rdropWhile unicode.IsSpace

/-- Go's `strings.Trim`: leading and trailing runes of `cutset` removed. -/
def Trim (s cutset : Str) : Str :=
  (s.rdropWhile (fun c => decide (c ∈ cutset))).dropWhile (fun c => decide (c ∈ cutset))

/-- Go's `strings.HasPrefix`. -/
def HasPrefix (s pre : Str) : Bool :=
  pre.isPrefixOf s

/-- Go's `strings.HasSuffix`. -/
def HasSuffix (s suf : Str) : Bool :=
  suf.isSuffixOf s

/-- Go's `strings.TrimPrefix`. -/
def TrimPrefix (s pre : Str) : Str :=
  if HasPrefix s pre then s.drop pre.length else s

/-- Go's `strings.Index`: the position of the first occurrence of `sep` in `s`,
counted from `i`. -/
def indexFrom (sep : Str) : Str → Nat → Option Nat
  | [], i => if sep = [] then some i else none
  | c :: cs, i => if sep.isPrefixOf (c :: cs) then some i else indexFrom sep cs (i + 1)

/-- Go's `strings.Index`. -/
def Index (s sep : Str) : Option Nat :=
  indexFrom sep s 0

/-- Go's `strings.Contains`. -/
def Contains (s sub : Str) : Bool :=
  (Index s sub).isSome

/-- Go's `strings.Cut`: `s` cut around the first occurrence of `sep`. -/
def Cut (s sep : Str) : Str × Str × Bool :=
  match Index s sep with
  | some i => (s.take i, s.drop (i + sep.length), true)
  | none => (s, [], false)

/-- The loop of Go's `strings.FieldsFunc`: `cur` holds, reversed, the runes of the
field being read. -/
def fieldsLoop (f : Char → Bool) : Str → Str → List Str
  | [], cur => if cur = [] then [] else [cur.reverse]
  | c :: cs, cur =>
    if f c then
      if cur = [] then fieldsLoop f cs [] else cur.reverse :: fieldsLoop f cs []
    else fieldsLoop f cs (c :: cur)

/-- Go's `strings.FieldsFunc`: the maximal runs of runes that do not satisfy `f`. -/
def FieldsFunc (s : Str) (f : Char → Bool) : List Str :=
  fieldsLoop f s []

end strings

/-! ## endpoints.go: token matching -/

/-- The separator predicate of `splitNoProxyList`. -/
def isNoProxySeparator (r : Char) : Bool :=
  r == ',' || r == ' ' || r == '\t' || r == '\n' || r == '\r'

/-- Go `splitNoProxyList`: the fields between separators, trimmed, empty ones dropped. -/
def splitNoProxyList (s : Str) : List Str :=
  ((strings.FieldsFunc s isNoProxySeparator).map strings.TrimSpace).filter (fun tok => tok ≠ [])

/-- Go `getDefaultPortForScheme`. -/
def getDefaultPortForScheme (table : Char → Char) (scheme : Str) : Str :=
  let s := strings.ToLower table scheme
  if s = "http".toList then "80".toList
  else if s = "https".toList then "443".toList
  else []

/-- Go `domainMatches`: exact match or label-boundary suffix match. -/
def domainMatches (table : Char → Char) (host suffix : Str) : Bool :=
  let h := strings.ToLower table host
  let s := strings.ToLower table suffix
  if h = s then true
  else strings.HasSuffix h ('.' :: s)

/-- Go `normalizeToken`: spaces and IPv6 brackets trimmed, then lower-cased. -/
def normalizeToken (table : Char → Char) (tok : Str) : Str :=
  let tok := strings.TrimSpace tok
  let tok := strings.Trim tok ['[', ']']
  strings.ToLower table tok

/-- Go `tokenMatches`: does the exclusion token `tok` cover `host` and `port`? -/
def tokenMatches (table : Char → Char) (host port tok : Str) (nonExact : Bool) : Bool :=
  let tok := normalizeToken table tok
  let hostL := strings.ToLower table host
  match strings.Cut tok [':'] with
  | (h, p, ok) =>
    if ok = true ∧ p ≠ [] then
      let h := strings.Trim h ['[', ']']
      if hostL = h ∨ domainMatches table hostL h = true then decide (port = p)
      else false
    else if tok = ['*'] then true
    else if strings.HasPrefix tok ['.'] = true then
      domainMatches table hostL (strings.TrimPrefix tok ['.'])
    else if hostL = tok then true
    else if nonExact = true ∧ strings.Contains hostL tok = true then true
    else false

/-! ## types.go and options.go -/

/-- Go `Source` is a Go string type. -/
abbrev Source := Str

/-- Go `SourceDefault`. -/
def SourceDefault : Source := "default".toList

/-- Go `SourceStdEnv`. -/
def SourceStdEnv : Source := "std_env".toList

/-- Go `SourceConfig`. -/
def SourceConfig : Source := "config".toList

/-- Go `SourceDDEnv`. -/
def SourceDDEnv : Source := "dd_env".toList

/-- Go `ValueWithSource`. -/
structure ValueWithSource where
  Value : Str
  Source : Proxy.Source
  deriving DecidableEq, Repr

/-- Go `Effective`. -/
structure Effective where
  HTTP : ValueWithSource
  HTTPS : ValueWithSource
  NoProxy : ValueWithSource
  NonExactNoProxy : Bool
  deriving DecidableEq, Repr

/-- Go `Severity` is a Go string type. -/
abbrev Severity := Str

/-- Go `SeverityGreen`. -/
def SeverityGreen : Severity := "green".toList

/-- Go `SeverityYellow`. -/
def SeverityYellow : Severity := "yellow".toList

/-- Go `SeverityRed`. -/
def SeverityRed : Severity := "red".toList

/-- The values the code stores in `Finding.Evidence` (declared `any`): nothing, a
list of sourced values, or a `map[string]string` given by its entries. -/
inductive Evidence where
  | absent : Evidence
  | values : List ValueWithSource → Evidence
  | strings : List (Str × Str) → Evidence
  deriving DecidableEq, Repr

/-- Go `Finding`. -/
structure Finding where
  Code : Str
  Severity : Proxy.Severity
  Description : Str
  Action : Str
  Evidence : Proxy.Evidence
  DocURL : Str
  deriving DecidableEq, Repr

/-- Go `Endpoint`. -/
structure Endpoint where
  Name : Str
  URL : Str
  deriving DecidableEq, Repr

/-- Go `EndpointCheck`. -/
structure EndpointCheck where
  Endpoint : Proxy.Endpoint
  Host : Str
  Port : Str
  Bypassed : Bool
  Matched : Str
  deriving DecidableEq, Repr

/-- Go `Conflict`. -/
structure Conflict where
  Key : Str
  Values : List ValueWithSource
  deriving DecidableEq, Repr

/-- Go `EnvironmentInfo`. -/
structure EnvironmentInfo where
  Site : Str
  DDURL : Str
  deriving DecidableEq, Repr

/-- Go `SchemaVersion`. -/
def SchemaVersion : Str := "v1".toList

/-- Go `Result`. -/
structure Result where
  SchemaVersion : Str
  Env : EnvironmentInfo
  Summary : Severity
  Effective : Proxy.Effective
  Findings : List Finding
  EndpointMatrix : List EndpointCheck
  Conflicts : List Conflict
  deriving DecidableEq, Repr

/-- Go `Options`; `Timeout` is a `time.Duration` in nanoseconds, `Retries` a Go `int`. -/
structure Options where
  NoNetwork : Bool
  Timeout : Int
  Retries : Int
  ExtraEndpoints : List Endpoint
  deriving DecidableEq, Repr

/-! ## What the package reads from outside -/

/-- What the code reads of a `*url.URL` returned by `url.Parse`: the fields `Scheme`
and `Host` and the results of the methods `Hostname()` and `Port()`. -/
structure URL where
  Scheme : Str
  Host : Str
  Hostname : Str
  Port : Str
  deriving DecidableEq, Repr

/-- Go `url.Parse` of Go's `net/url`, a parameter: `none` stands for a returned error. -/
abbrev URLParser := Str → Option URL

/-- The process environment (`os.Getenv`) and the configuration store
(`configsetup.Datadog()`, `none` when it is nil, else its `GetString`). -/
structure Sources where
  Getenv : Str → Str
  Datadog : Option (Str → Str)

/-! ## endpoints.go: the bypass matrix -/

/-- The normalize and de-duplicate loop of `EvaluateNoProxy`: `seen` is the key set
of the map, `tokens` the slice built so far. -/
def normalizeTokens (table : Char → Char) : List Str → List Str → List Str → List Str
  | [], _, tokens => tokens
  | t :: rest, seen, tokens =>
    let n := normalizeToken table t
    if n = [] then normalizeTokens table rest seen tokens
    else if n ∈ seen then normalizeTokens table rest seen tokens
    else normalizeTokens table rest (n :: seen) (tokens ++ [n])

/-- The token list `EvaluateNoProxy` matches against. -/
def noProxyTokens (table : Char → Char) (eff : Effective) : List Str :=
  let noProxy := strings.TrimSpace eff.NoProxy.Value
  let rawTokens := splitNoProxyList noProxy
  normalizeTokens table rawTokens [] []

/-- The inner loop of `EvaluateNoProxy`: the first matching token is recorded and
the loop is left. -/
def matchTokens (table : Char → Char) (host port : Str) (nonExact : Bool) :
    List Str → EndpointCheck → EndpointCheck
  | [], check => check
  | t :: ts, check =>
    if tokenMatches table host port t nonExact = true then
      { check with Bypassed := true, Matched := t }
    else matchTokens table host port nonExact ts check

/-- The outer loop of `EvaluateNoProxy` over the endpoints, appending to `matrix`. -/
def evaluateEndpoints (table : Char → Char) (parse : URLParser) (tokens : List Str)
    (nonExact : Bool) : List Endpoint → List EndpointCheck → List EndpointCheck
  | [], matrix => matrix
  | ep :: eps, matrix =>
    match parse ep.URL with
    | none => evaluateEndpoints table parse tokens nonExact eps matrix
    | some u =>
      if u.Host = [] then evaluateEndpoints table parse tokens nonExact eps matrix
      else
        let host := u.Hostname
        let port := if u.Port = [] then getDefaultPortForScheme table u.Scheme else u.Port
        let check : EndpointCheck :=
          { Endpoint := ep, Host := host, Port := port, Bypassed := false, Matched := [] }
        evaluateEndpoints table parse tokens nonExact eps
          (matrix ++ [matchTokens table host port nonExact tokens check])

/-- Go `EvaluateNoProxy`: which endpoints are bypassed by NO_PROXY. -/
def EvaluateNoProxy (table : Char → Char) (parse : URLParser) (eff : Effective)
    (eps : List Endpoint) : List EndpointCheck :=
  evaluateEndpoints table parse (noProxyTokens table eff) eff.NonExactNoProxy eps []

/-- Go `tryLoadSiteFromYAML`; `readYAML` stands for reading and decoding
`datadog.yaml` in the directory, `none` when either fails. -/
def tryLoadSiteFromYAML (readYAML : Str → Option (Str × Str)) (confDir : Str) : Str × Str :=
  if strings.TrimSpace confDir = [] then ([], [])
  else
    match readYAML confDir with
    | none => ([], [])
    | some doc => doc

/-- The extras loop of `EffectiveEndpoints`. -/
def appendExtras : List Endpoint → List Endpoint → List Endpoint
  | [], eps => eps
  | ex :: extras, eps =>
    let u := if strings.Contains ex.URL "://".toList = true then ex.URL else "https://".toList ++ ex.URL
    appendExtras extras (eps ++ [{ Name := ex.Name, URL := u }])

/-- Go `EffectiveEndpoints`: the endpoint catalog and the site and control-plane URL. -/
def EffectiveEndpoints (src : Sources) (readYAML : Str → Option (Str × Str))
    (extras : List Endpoint) : List Endpoint × EnvironmentInfo :=
  let site :=
    match src.Datadog with
    | some cfg =>
      let s := strings.TrimSpace (cfg "site".toList)
      if s ≠ [] then s else "datadoghq.com".toList
    | none =>
      let ddConf := src.Getenv "DD_CONF_DIR".toList
      if ddConf ≠ [] then
        let s := (tryLoadSiteFromYAML readYAML ddConf).1
        if s ≠ [] then s else "datadoghq.com".toList
      else "datadoghq.com".toList
  let ddURL :=
    match src.Datadog with
    | some cfg =>
      let s := strings.TrimSpace (cfg "dd_url".toList)
      if s ≠ [] then s else "https://app.".toList ++ site
    | none =>
      let ddConf := src.Getenv "DD_CONF_DIR".toList
      if ddConf ≠ [] then
        let u := (tryLoadSiteFromYAML readYAML ddConf).2
        if strings.TrimSpace u ≠ [] then u else "https://app.".toList ++ site
      else "https://app.".toList ++ site
  let env : EnvironmentInfo := { Site := site, DDURL := ddURL }
  let host := fun (h : Str) => "https://".toList ++ h ++ ['.'] ++ site
  let eps : List Endpoint := [{ Name := "core".toList, URL := ddURL }]
  let eps := eps ++ [
    { Name := "dbm-metrics".toList, URL := host "dbm-metrics-intake".toList },
    { Name := "ndm".toList, URL := host "ndm-intake".toList },
    { Name := "snmp-traps".toList, URL := host "snmp-traps-intake".toList },
    { Name := "netpath".toList, URL := host "netpath-intake".toList },
    { Name := "container-life".toList, URL := host "contlcycle-intake".toList },
    { Name := "container-image".toList, URL := host "contimage-intake".toList },
    { Name := "sbom".toList, URL := host "sbom-intake".toList }]
  let eps := eps ++ [{ Name := "flare".toList, URL := "https://flare.agent.".toList ++ site }]
  (appendExtras extras eps, env)

/-! ## conflicts.go -/

/-- The first half of the closure `collect` in `CollectConflicts`: the candidate
values of `key`, in the order the sources are read. -/
def collectValues (src : Sources) (key : Str) : List ValueWithSource :=
  let values : List ValueWithSource := []
  let values :=
    if key = "https".toList then
      let v := strings.TrimSpace (src.Getenv "DD_PROXY_HTTPS".toList)
      if v ≠ [] then values ++ [{ Value := v, Source := SourceDDEnv }] else values
    else
      let v := strings.TrimSpace (src.Getenv "DD_PROXY_HTTP".toList)
      if v ≠ [] then values ++ [{ Value := v, Source := SourceDDEnv }] else values
  let values :=
    match src.Datadog with
    | some cfg =>
      if key = "https".toList then
        let v := strings.TrimSpace (cfg "proxy.https".toList)
        if v ≠ [] then values ++ [{ Value := v, Source := SourceConfig }] else values
      else
        let v := strings.TrimSpace (cfg "proxy.http".toList)
        if v ≠ [] then values ++ [{ Value := v, Source := SourceConfig }] else values
    | none => values
  let values :=
    if key = "https".toList then
      let v := strings.TrimSpace (src.Getenv "HTTPS_PROXY".toList)
      if v ≠ [] then values ++ [{ Value := v, Source := SourceStdEnv }] else values
    else
      let v := strings.TrimSpace (src.Getenv "HTTP_PROXY".toList)
      if v ≠ [] then values ++ [{ Value := v, Source := SourceStdEnv }] else values
  let values :=
    if key = "https".toList ∧ values.length = 0 then
      let v := strings.TrimSpace (src.Getenv "https_proxy".toList)
      if v ≠ [] then values ++ [{ Value := v, Source := SourceStdEnv }] else values
    else values
  let values :=
    if key = "http".toList ∧ values.length = 0 then
      let v := strings.TrimSpace (src.Getenv "http_proxy".toList)
      if v ≠ [] then values ++ [{ Value := v, Source := SourceStdEnv }] else values
    else values
  values

/-- The de-dup loop of `collect`: `uniq` is the map from value to source, given by
its entries, `out` the slice built so far. -/
def dedupByValue : List ValueWithSource → List (Str × Source) → List ValueWithSource →
    List ValueWithSource
  | [], _, out => out
  | vv :: rest, uniq, out =>
    if vv.Value ∈ uniq.map Prod.fst then dedupByValue rest uniq out
    else dedupByValue rest ((vv.Value, vv.Source) :: uniq) (out ++ [vv])

/-- The closure `collect` of `CollectConflicts`. -/
def collect (src : Sources) (key : Str) : List ValueWithSource :=
  dedupByValue (collectValues src key) [] []

/-- Go `CollectConflicts`; the argument `eff` is not read by the code. -/
def CollectConflicts (src : Sources) (_eff : Effective) : List Conflict :=
  let out : List Conflict := []
  let out :=
    let vals := collect src "https".toList
    if vals.length > 1 then out ++ [{ Key := "https".toList, Values := vals }] else out
  let out :=
    let vals := collect src "http".toList
    if vals.length > 1 then out ++ [{ Key := "http".toList, Values := vals }] else out
  out

/-- The loop of `lintConflicts` over the conflicts. -/
def conflictFindings (upper : Char → Char) : List Conflict → List Finding → List Finding
  | [], out => out
  | c :: confs, out =>
    let key := c.Key
    conflictFindings upper confs (out ++ [{
      Code := "proxy.".toList ++ key ++ ".conflict".toList,
      Severity := SeverityYellow,
      Description := strings.ToUpper upper key ++
        " proxy is defined by multiple sources with different values.".toList,
      Action := "Use a single source or align the values across sources.".toList,
      Evidence := Evidence.values c.Values,
      DocURL := "https://docs.datadoghq.com/agent/configuration/proxy/".toList }])

/-- Go `lintConflicts`. -/
def lintConflicts (upper : Char → Char) (src : Sources) (eff : Effective) : List Finding :=
  conflictFindings upper (CollectConflicts src eff) []

/-! ## probes.go -/

/-- The network as the prober sees it.  `SplitHostPortFails addr` tells whether
`net.SplitHostPort addr` returns an error; `Dial timeout addr n` is the outcome of
the dial that is the `n`-th one of the run (from 0): `none` when it connects, else
the text of the error. -/
structure Network where
  SplitHostPortFails : Str → Bool
  Dial : Int → Str → Nat → Option Str

/-- Go's `net.JoinHostPort`. -/
def JoinHostPort (host port : Str) : Str :=
  if ':' ∈ host then ['['] ++ host ++ "]:".toList ++ port
  else host ++ [':'] ++ port

/-- A Go `int` or `int64` result, wrapped to 64 bits. -/
def wrapInt64 (x : Int) : Int :=
  (x + 2 ^ 63) % 2 ^ 64 - 2 ^ 63

/-- The dial loop of `ProbeProxyConnectivity`: `left` attempts remain, `n` dials
were made before; returns `lastErr` and the number of dials made. -/
def dialLoop (dial : Nat → Option Str) : Nat → Nat → Option Str → Option Str × Nat
  | 0, n, lastErr => (lastErr, n)
  | left + 1, n, _ =>
    match dial n with
    | none => (none, n + 1)
    | some err => dialLoop dial left (n + 1) (some err)

/-- The loop of `ProbeProxyConnectivity` over the targets `(key, rawURL)`; `n`
counts the dials made so far. -/
def probeTargets (upper : Char → Char) (parse : URLParser) (net : Network) (timeout : Int)
    (retries : Int) : List (Str × Str) → List Finding → Nat → List Finding × Nat
  | [], out, n => (out, n)
  | t :: targets, out, n =>
    match parse t.2 with
    | none => probeTargets upper parse net timeout retries targets out n
    | some u =>
      if u.Host = [] then probeTargets upper parse net timeout retries targets out n
      else
        let addr : Option Str :=
          if net.SplitHostPortFails u.Host = true then
            if u.Scheme = "http".toList then some (JoinHostPort u.Host "80".toList)
            else if u.Scheme = "https".toList then some (JoinHostPort u.Host "443".toList)
            else none
          else some u.Host
        match addr with
        | none => probeTargets upper parse net timeout retries targets out n
        | some addr =>
          let attempts := wrapInt64 (retries + 1)
          let r := dialLoop (net.Dial timeout addr) attempts.toNat n none
          match r.1 with
          | none => probeTargets upper parse net timeout retries targets out r.2
          | some lastErr =>
            probeTargets upper parse net timeout retries targets (out ++ [{
              Code := "proxy.".toList ++ t.1 ++ ".connect_failed".toList,
              Severity := SeverityRed,
              Description := "Failed to connect to the configured ".toList ++
                strings.ToUpper upper t.1 ++ " proxy.".toList,
              Action :=
                "Verify host/port, firewall, routing, and that the proxy is reachable.".toList,
              Evidence := Evidence.strings [("target".toList, addr), ("error".toList, lastErr)],
              DocURL := [] }]) r.2

/-- Go `ProbeProxyConnectivity`, with the number of dials it made. -/
def ProbeProxyConnectivity (upper : Char → Char) (parse : URLParser) (net : Network)
    (eff : Effective) (timeout : Int) (retries : Int) : List Finding × Nat :=
  let timeout := if timeout ≤ 0 then 2 * 1000000000 else timeout
  let retries := if retries < 0 then 0 else retries
  let targets : List (Str × Str) := []
  let targets :=
    if eff.HTTPS.Value ≠ [] then targets ++ [("https".toList, eff.HTTPS.Value)] else targets
  let targets :=
    if eff.HTTP.Value ≠ [] then targets ++ [("http".toList, eff.HTTP.Value)] else targets
  if targets.length = 0 then ([], 0)
  else probeTargets upper parse net timeout retries targets [] 0

/-- Go `ProbeEndpointsConnectivity`: returns nil. -/
def ProbeEndpointsConnectivity (_eff : Effective) (_eps : List Endpoint) : List Finding :=
  []

/-! ## reporter.go -/

/-- Everything `Run` reads from outside the files embedded here: the case tables of
`unicode`, `url.Parse`, the environment and configuration store, the reader of the
fallback `datadog.yaml`, the network, and the package functions `ComputeEffective`,
`LintAll` and `lintURLShapes`, which `Run` calls and whose source is in other
files. -/
structure World where
  lower : Char → Char
  upper : Char → Char
  parse : URLParser
  src : Sources
  readYAML : Str → Option (Str × Str)
  net : Network
  ComputeEffective : Effective
  LintAll : Effective → List Finding
  lintURLShapes : Effective → List Finding

/-- The bypass loop of `Run`: one finding for each bypassed row of the matrix. -/
def bypassFindings : List EndpointCheck → List Finding → List Finding
  | [], findings => findings
  | row :: matrix, findings =>
    if row.Bypassed = true then
      bypassFindings matrix (findings ++ [{
        Code := "no_proxy.endpoint_bypassed".toList,
        Severity := SeverityYellow,
        Description := row.Endpoint.Name ++
          " endpoint will bypass the proxy due to NO_PROXY".toList,
        Action := "Remove or narrow the NO_PROXY token if unintended.".toList,
        Evidence := Evidence.strings [("endpoint".toList, row.Endpoint.Name),
          ("host".toList, row.Host), ("token".toList, row.Matched)],
        DocURL := "https://docs.datadoghq.com/agent/configuration/proxy/".toList }])
    else bypassFindings matrix findings

/-- The summary rollup loop of `Run`: red ends the loop, yellow replaces green. -/
def rollupLoop : List Finding → Severity → Severity
  | [], summary => summary
  | f :: findings, summary =>
    if f.Severity = SeverityRed then SeverityRed
    else if f.Severity = SeverityYellow ∧ summary = SeverityGreen then
      rollupLoop findings SeverityYellow
    else rollupLoop findings summary

/-- The findings `Run` assembles: lints, conflicts, bypasses, then the probes. -/
def runFindings (w : World) (opts : Options) : List Finding :=
  let eff := w.ComputeEffective
  let findings : List Finding := []
  let findings := findings ++ w.LintAll eff
  let findings := findings ++ w.lintURLShapes eff
  let findings := findings ++ lintConflicts w.upper w.src eff
  let eps := (EffectiveEndpoints w.src w.readYAML opts.ExtraEndpoints).1
  let matrix := EvaluateNoProxy w.lower w.parse eff eps
  let findings := bypassFindings matrix findings
  if opts.NoNetwork = false then
    let findings :=
      findings ++ (ProbeProxyConnectivity w.upper w.parse w.net eff opts.Timeout opts.Retries).1
    findings ++ ProbeEndpointsConnectivity eff eps
  else findings

/-- Go `Run`: config lints, the endpoint matrix and, when enabled, the probes. -/
def Run (w : World) (opts : Options) : Result :=
  let eff := w.ComputeEffective
  let epsEnv := EffectiveEndpoints w.src w.readYAML opts.ExtraEndpoints
  let matrix := EvaluateNoProxy w.lower w.parse eff epsEnv.1
  let findings := runFindings w opts
  let summary := rollupLoop findings SeverityGreen
  let confs := CollectConflicts w.src eff
  { SchemaVersion := SchemaVersion,
    Env := epsEnv.2,
    Summary := summary,
    Effective := eff,
    Findings := findings,
    EndpointMatrix := matrix,
    Conflicts := confs }

/-! ## Sample inputs for the worked examples -/

/-- A case table that changes nothing above U+007F. -/
def plainTable : Char → Char := fun c => c

/-- A URL parser that knows the URLs of the worked examples only. -/
def sampleParse : URLParser := fun raw =>
  if raw = "https://api.example.com".toList then
    some { Scheme := "https".toList, Host := "api.example.com".toList,
           Hostname := "api.example.com".toList, Port := [] }
  else if raw = "http://proxy.local:8080".toList then
    some { Scheme := "http".toList, Host := "proxy.local:8080".toList,
           Hostname := "proxy.local".toList, Port := "8080".toList }
  else none

/-- The two endpoints of the worked examples, and one whose URL does not parse. -/
def sampleEndpoints : List Endpoint :=
  [{ Name := "api".toList, URL := "https://api.example.com".toList },
   { Name := "broken".toList, URL := "::".toList },
   { Name := "local".toList, URL := "http://proxy.local:8080".toList }]

/-- An `Effective` with the given exclusion list and matching mode, no proxies. -/
def sampleEffective (noProxy : Str) (nonExact : Bool) : Effective :=
  { HTTP := { Value := [], Source := SourceDefault },
    HTTPS := { Value := [], Source := SourceDefault },
    NoProxy := { Value := noProxy, Source := SourceStdEnv },
    NonExactNoProxy := nonExact }

/-- The row of the endpoint `api` under the exclusion list
`.example.com, proxy.local:8080`. -/
def sampleRow : EndpointCheck :=
  { Endpoint := { Name := "api".toList, URL := "https://api.example.com".toList },
    Host := "api.example.com".toList, Port := "443".toList,
    Bypassed := true, Matched := ".example.com".toList }

/-- A finding of the given severity with nothing else filled in. -/
def sampleFinding (sev : Severity) : Finding :=
  { Code := [], Severity := sev, Description := [], Action := [],
    Evidence := Evidence.absent, DocURL := [] }

/-! ## First-seen order, as the specification words the de-duplication -/

/-- The list with every later duplicate removed: each element is kept where it is
first seen. -/
def firstSeen : List Str → List Str
  | [] => []
  | x :: xs => x :: (firstSeen xs).filter (fun y => y ≠ x)

/-- The exclusion list of an `Effective` split into tokens, each normalized, the
empty ones dropped, duplicates kept. -/
def normalizedRawTokens (table : Char → Char) (eff : Effective) : List Str :=
  ((splitNoProxyList (strings.TrimSpace eff.NoProxy.Value)).map (normalizeToken table)).filter
    (fun n => n ≠ [])

/-! ## The candidate values of the conflict detector, as the specification lists them -/

/-- The candidate values of one key in source order, following the specification:
the product environment variable (`dd_env`), then the configuration store
(`config`), then the standard environment variable (`std_env`), each trimmed, the
empty ones left out. -/
def sourceCandidates (src : Sources) (ddVar cfgKey stdVar : Str) : List ValueWithSource :=
  let dd : List ValueWithSource :=
    [{ Value := strings.TrimSpace (src.Getenv ddVar), Source := SourceDDEnv }]
  let config : List ValueWithSource :=
    match src.Datadog with
    | some cfg => [{ Value := strings.TrimSpace (cfg cfgKey), Source := SourceConfig }]
    | none => []
  let std : List ValueWithSource :=
    [{ Value := strings.TrimSpace (src.Getenv stdVar), Source := SourceStdEnv }]
  (dd ++ config ++ std).filter (fun vv => vv.Value ≠ [])

/-- The candidates of the key `https`. -/
def httpsCandidates (src : Sources) : List ValueWithSource :=
  sourceCandidates src "DD_PROXY_HTTPS".toList "proxy.https".toList "HTTPS_PROXY".toList

/-- The candidates of the key `http`. -/
def httpCandidates (src : Sources) : List ValueWithSource :=
  sourceCandidates src "DD_PROXY_HTTP".toList "proxy.http".toList "HTTP_PROXY".toList

/-- The value the standard environment variable contributes when the lowercase
form is read whenever the uppercase form is empty, as the specification words it. -/
def stdEnvWithFallback (src : Sources) (upperVar lowerVar : Str) : Str :=
  let v := strings.TrimSpace (src.Getenv upperVar)
  if v ≠ [] then v else strings.TrimSpace (src.Getenv lowerVar)

/-- The candidates of a key, `https` or else `http` as in the closure `collect`. -/
def keyCandidates (src : Sources) (key : Str) : List ValueWithSource :=
  if key = "https".toList then httpsCandidates src else httpCandidates src

/-- An environment and configuration store given by their entries; a name that is
not listed reads as the empty string. -/
def sourcesOf (env : List (Str × Str)) (cfg : Option (List (Str × Str))) : Sources :=
  { Getenv := fun name => (env.lookup name).getD [],
    Datadog := cfg.map (fun entries => fun name => (entries.lookup name).getD []) }

/-- The product variable says `http://a`; the store and `HTTPS_PROXY` say `http://b`. -/
def sampleSources : Sources :=
  sourcesOf [("DD_PROXY_HTTPS".toList, " http://a ".toList),
             ("HTTPS_PROXY".toList, "http://b".toList)]
    (some [("proxy.https".toList, "http://b".toList)])

/-- The product variable says `http://a`, only the lowercase `https_proxy` is set
beside it, to `http://b`, and there is no configuration store. -/
def lowercaseSources : Sources :=
  sourcesOf [("DD_PROXY_HTTPS".toList, "http://a".toList),
             ("https_proxy".toList, "http://b".toList)] none

/-- The conflict `CollectConflicts` reports for `sampleSources`. -/
def sampleConflict : Conflict :=
  { Key := "https".toList,
    Values := [{ Value := "http://a".toList, Source := SourceDDEnv },
               { Value := "http://b".toList, Source := SourceConfig }] }

/-! ## proxy_cmd.go and diagnose_proxy.go: the options the callers pass -/

/-- The `Options` literal the `proxy` command builds in `RunE` from its flag
variables (`parseExtraEndpoints` already applied to `--endpoints`). -/
def commandOptions (noNetwork : Bool) (timeout retries : Int) (parsedExtras : List Endpoint) :
    Options :=
  { NoNetwork := noNetwork, Timeout := timeout, Retries := retries,
    ExtraEndpoints := parsedExtras }

/-- The options of the `proxy` command when no flag is given: the flag defaults are
`--no-network` true, `--timeout` two seconds, `--retries` 0 and no `--endpoints`. -/
def defaultCommandOptions : Options :=
  commandOptions true (2 * 1000000000) 0 []

/-- The options `collectProxyDiagnose` passes: `NoNetwork` true, the rest zero. -/
def flareOptions : Options :=
  { NoNetwork := true, Timeout := 0, Retries := 0, ExtraEndpoints := [] }

/-- The zero value of `Options`: no field set by the caller. -/
def zeroOptions : Options :=
  { NoNetwork := false, Timeout := 0, Retries := 0, ExtraEndpoints := [] }

/-- The findings `Run` assembles before the probes: lints, conflicts, bypasses. -/
def configFindings (w : World) (opts : Options) : List Finding :=
  bypassFindings
    (EvaluateNoProxy w.lower w.parse w.ComputeEffective
      (EffectiveEndpoints w.src w.readYAML opts.ExtraEndpoints).1)
    (w.LintAll w.ComputeEffective ++ w.lintURLShapes w.ComputeEffective ++
      lintConflicts w.upper w.src w.ComputeEffective)

/-- A network on which `net.SplitHostPort` accepts every address and every dial
fails with `connection refused`. -/
def refusingNet : Network :=
  { SplitHostPortFails := fun _ => false,
    Dial := fun _ _ _ => some "connection refused".toList }

/-- An `Effective` whose only proxy is the HTTP proxy `http://proxy.local:8080`. -/
def proxyLocalEffective : Effective :=
  { HTTP := { Value := "http://proxy.local:8080".toList, Source := SourceStdEnv },
    HTTPS := { Value := [], Source := SourceDefault },
    NoProxy := { Value := [], Source := SourceDefault },
    NonExactNoProxy := false }

/-- A world with that proxy configured and unreachable, no lint findings, an empty
environment and no configuration store. -/
def unreachableWorld : World :=
  { lower := plainTable, upper := plainTable, parse := sampleParse,
    src := sourcesOf [] none, readYAML := fun _ => none, net := refusingNet,
    ComputeEffective := proxyLocalEffective,
    LintAll := fun _ => [], lintURLShapes := fun _ => [] }

/-! ## Which endpoints get a row, as the specification words it -/

/-- Whether the URL of an endpoint parses and has a non-empty host. -/
def parsesToHost (parse : URLParser) (ep : Endpoint) : Bool :=
  match parse ep.URL with
  | some u => decide (u.Host ≠ [])
  | none => false

/-! ## The bypass finding and the catalog, as the specification words them -/

/-- The finding that names a bypassed row: its endpoint, host and matched token. -/
def bypassFinding (row : EndpointCheck) : Finding :=
  { Code := "no_proxy.endpoint_bypassed".toList,
    Severity := SeverityYellow,
    Description := row.Endpoint.Name ++ " endpoint will bypass the proxy due to NO_PROXY".toList,
    Action := "Remove or narrow the NO_PROXY token if unintended.".toList,
    Evidence := Evidence.strings [("endpoint".toList, row.Endpoint.Name),
      ("host".toList, row.Host), ("token".toList, row.Matched)],
    DocURL := "https://docs.datadoghq.com/agent/configuration/proxy/".toList }

/-- A parser that knows the URL `https://app.datadoghq.com` only. -/
def datadogParse : URLParser := fun raw =>
  if raw = "https://app.datadoghq.com".toList then
    some { Scheme := "https".toList, Host := "app.datadoghq.com".toList,
           Hostname := "app.datadoghq.com".toList, Port := [] }
  else none

/-- The normalization of a caller-supplied extra endpoint: `https://` is put in
front of a URL without `://`. -/
def normalizeExtra (ex : Endpoint) : Endpoint :=
  { Name := ex.Name,
    URL := if strings.Contains ex.URL "://".toList = true then ex.URL
           else "https://".toList ++ ex.URL }

/-- The nine fixed endpoints of the catalog for a site and a control-plane URL. -/
def fixedEndpoints (site ddURL : Str) : List Endpoint :=
  [{ Name := "core".toList, URL := ddURL },
   { Name := "dbm-metrics".toList, URL := "https://dbm-metrics-intake.".toList ++ site },
   { Name := "ndm".toList, URL := "https://ndm-intake.".toList ++ site },
   { Name := "snmp-traps".toList, URL := "https://snmp-traps-intake.".toList ++ site },
   { Name := "netpath".toList, URL := "https://netpath-intake.".toList ++ site },
   { Name := "container-life".toList, URL := "https://contlcycle-intake.".toList ++ site },
   { Name := "container-image".toList, URL := "https://contimage-intake.".toList ++ site },
   { Name := "sbom".toList, URL := "https://sbom-intake.".toList ++ site },
   { Name := "flare".toList, URL := "https://flare.agent.".toList ++ site }]

/-! ## The prober's address and finding, and the unreachable-proxy scenario -/

/-- The address `ProbeProxyConnectivity` dials for a parsed proxy URL: the host
when `net.SplitHostPort` accepts it, else the host joined with the default port of
the scheme, and `none` when the scheme has none (the target is then skipped). -/
def targetAddr (net : Network) (u : URL) : Option Str :=
  if net.SplitHostPortFails u.Host = true then
    if u.Scheme = "http".toList then some (JoinHostPort u.Host "80".toList)
    else if u.Scheme = "https".toList then some (JoinHostPort u.Host "443".toList)
    else none
  else some u.Host

/-- The red finding of a proxy that could not be reached. -/
def connectFailed (upper : Char → Char) (key addr lastErr : Str) : Finding :=
  { Code := "proxy.".toList ++ key ++ ".connect_failed".toList,
    Severity := SeverityRed,
    Description := "Failed to connect to the configured ".toList ++
      strings.ToUpper upper key ++ " proxy.".toList,
    Action := "Verify host/port, firewall, routing, and that the proxy is reachable.".toList,
    Evidence := Evidence.strings [("target".toList, addr), ("error".toList, lastErr)],
    DocURL := [] }

/-- A parser that knows the URL `https://10.255.255.1:9999` only. -/
def unroutableParse : URLParser := fun raw =>
  if raw = "https://10.255.255.1:9999".toList then
    some { Scheme := "https".toList, Host := "10.255.255.1:9999".toList,
           Hostname := "10.255.255.1".toList, Port := "9999".toList }
  else none

/-- An `Effective` whose only proxy is the HTTPS proxy `https://10.255.255.1:9999`. -/
def unroutableEffective : Effective :=
  { HTTP := { Value := [], Source := SourceDefault },
    HTTPS := { Value := "https://10.255.255.1:9999".toList, Source := SourceDDEnv },
    NoProxy := { Value := [], Source := SourceDefault },
    NonExactNoProxy := false }

/-- The largest Go `int` on a 64-bit platform. -/
def maxInt : Int := 9223372036854775807

/-! ## The conflict finding, as the specification words it -/

/-- The yellow finding of one conflict: the code names the key and the evidence is
the list of the conflicting values with their sources. -/
def conflictFinding (upper : Char → Char) (c : Conflict) : Finding :=
  { Code := "proxy.".toList ++ c.Key ++ ".conflict".toList,
    Severity := SeverityYellow,
    Description := strings.ToUpper upper c.Key ++
      " proxy is defined by multiple sources with different values.".toList,
    Action := "Use a single source or align the values across sources.".toList,
    Evidence := Evidence.values c.Values,
    DocURL := "https://docs.datadoghq.com/agent/configuration/proxy/".toList }

/-! ## The matrix without token de-duplication -/

/-- The matrix obtained by matching each endpoint against the normalized token
list with the duplicates kept. -/
def EvaluateNoProxyKeepingDuplicates (table : Char → Char) (parse : URLParser)
    (eff : Effective) (eps : List Endpoint) : List EndpointCheck :=
  evaluateEndpoints table parse (normalizedRawTokens table eff) eff.NonExactNoProxy eps []

/-! ## Lemmas on the string functions -/

theorem indexFrom_colon (h p : Str) (hh : ':' ∉ h) (i : Nat) :
    strings.indexFrom [':'] (h ++ ':' :: p) i = some (i + h.length) := by
  induction h generalizing i with
  | nil => simp [strings.indexFrom, List.isPrefixOf]
  | cons c cs ih =>
    have hc : ¬ (':' = c) := fun e => hh (List.mem_cons.mpr (Or.inl e))
    have hcs : ':' ∉ cs := fun e => hh (List.mem_cons_of_mem c e)
    have step : strings.indexFrom [':'] (c :: (cs ++ ':' :: p)) i
        = strings.indexFrom [':'] (cs ++ ':' :: p) (i + 1) := by
      simp [strings.indexFrom, List.isPrefixOf, hc]
    rw [List.cons_append, step, ih hcs (i + 1), List.length_cons]
    congr 1
    omega

theorem Cut_colon (h p : Str) (hh : ':' ∉ h) :
    strings.Cut (h ++ ':' :: p) [':'] = (h, p, true) := by
  simp [strings.Cut, strings.Index, indexFrom_colon h p hh 0]

theorem ToLower_idem (table : Char → Char)
    (hidem : ∀ c, unicode.ToLower table (unicode.ToLower table c) = unicode.ToLower table c)
    (s : Str) :
    strings.ToLower table (strings.ToLower table s) = strings.ToLower table s := by
  simp only [strings.ToLower, List.map_map]
  apply List.map_congr_left
  intro c _
  exact hidem c

theorem domainMatches_eq_true (table : Char → Char) (host suffix : Str) :
    domainMatches table host suffix = true ↔
      (strings.ToLower table host = strings.ToLower table suffix ∨
        ('.' :: strings.ToLower table suffix) <:+ strings.ToLower table host) := by
  unfold domainMatches
  by_cases h : strings.ToLower table host = strings.ToLower table suffix
  · simp [h]
  · simp [h, strings.HasSuffix]

/-! ## Claims on token matching -/

/-- C1: `domainMatches host suffix` holds exactly when the lower-cased host equals
the lower-cased suffix or ends with a dot followed by the lower-cased suffix; so
`notexample.com` does not match `example.com`, while `sub.example.com` and
`example.com` do. -/
theorem C1_domainMatches_label_boundary (table : Char → Char) :
    (∀ host suffix : Str,
      domainMatches table host suffix = true ↔
        (strings.ToLower table host = strings.ToLower table suffix ∨
          ('.' :: strings.ToLower table suffix) <:+ strings.ToLower table host)) ∧
    domainMatches table "notexample.com".toList "example.com".toList = false ∧
    domainMatches table "sub.example.com".toList "example.com".toList = true ∧
    domainMatches table "example.com".toList "example.com".toList = true :=
  ⟨domainMatches_eq_true table, rfl, rfl, rfl⟩

/-- C2, as the claim states it, fails: with the non-exact mode off the plain token
`example.com` does not match the host `api.example.com`, here at the port `443`. -/
theorem C2_plain_token_misses_subdomain :
    tokenMatches plainTable "api.example.com".toList "443".toList "example.com".toList false
      = false := by
  decide

/-- C2, amended: with the non-exact mode off and for every port, the plain token
`example.com` matches the host `example.com` only, neither `api.example.com` nor
`notexample.com`; the leading-dot token `.example.com` is the boundary-safe suffix
form, matching `api.example.com` and `example.com` but not `notexample.com`. -/
theorem C2_plain_and_dotted_token (table : Char → Char) (port : Str) :
    tokenMatches table "example.com".toList port "example.com".toList false = true ∧
    tokenMatches table "api.example.com".toList port "example.com".toList false = false ∧
    tokenMatches table "notexample.com".toList port "example.com".toList false = false ∧
    tokenMatches table "api.example.com".toList port ".example.com".toList false = true ∧
    tokenMatches table "example.com".toList port ".example.com".toList false = true ∧
    tokenMatches table "notexample.com".toList port ".example.com".toList false = false :=
  ⟨rfl, rfl, rfl, rfl, rfl, rfl⟩

/-- C3: for a token whose normalized form is `h:p` with `p` non-empty and no colon
in `h`, `tokenMatches` holds exactly when the port equals `p` and the host equals,
or is a label-boundary subdomain of, `h` with its brackets stripped.  Lower-casing
is taken to be idempotent, as Unicode case folding is. -/
theorem C3_host_port_token (table : Char → Char)
    (hidem : ∀ c, unicode.ToLower table (unicode.ToLower table c) = unicode.ToLower table c)
    (host port tok h p : Str) (nonExact : Bool)
    (hnorm : normalizeToken table tok = h ++ ':' :: p) (hh : ':' ∉ h) (hp : p ≠ []) :
    tokenMatches table host port tok nonExact = true ↔
      (port = p ∧ domainMatches table host (strings.Trim h ['[', ']']) = true) := by
  have hdm : ∀ x : Str, domainMatches table (strings.ToLower table host) x
      = domainMatches table host x := by
    intro x
    simp only [domainMatches, ToLower_idem table hidem]
  have heq : strings.ToLower table host = strings.Trim h ['[', ']'] →
      domainMatches table host (strings.Trim h ['[', ']']) = true := by
    intro e
    rw [domainMatches_eq_true]
    left
    rw [← e, ToLower_idem table hidem]
  simp only [tokenMatches, hnorm, Cut_colon h p hh, hdm]
  by_cases hd : domainMatches table host (strings.Trim h ['[', ']']) = true
  · simp [hd, hp]
  · have hne : ¬ strings.ToLower table host = strings.Trim h ['[', ']'] := fun e => hd (heq e)
    simp [hd, hp, hne]

theorem toNat_ofNat_small (n : Nat) (h : n < 0xD800) : (Char.ofNat n).toNat = n := by
  have hv : n.isValidChar := Or.inl h
  simp only [Char.ofNat, hv, Char.toNat, Char.ofNatAux, dif_pos]
  rfl

theorem plainTable_idem (c : Char) :
    unicode.ToLower plainTable (unicode.ToLower plainTable c) = unicode.ToLower plainTable c := by
  unfold unicode.ToLower
  by_cases h1 : c.toNat ≤ 0x7F
  · by_cases h2 : 0x41 ≤ c.toNat ∧ c.toNat ≤ 0x5A
    · have h3 : (Char.ofNat (c.toNat + 0x20)).toNat = c.toNat + 0x20 :=
        toNat_ofNat_small _ (by omega)
      have h4 : c.toNat + 0x20 ≤ 0x7F := by omega
      have h5 : ¬ (0x41 ≤ c.toNat + 0x20 ∧ c.toNat + 0x20 ≤ 0x5A) := by omega
      simp only [h1, h2, if_true, and_self, h3, h4, h5, if_false]
    · simp only [h1, h2, if_true, if_false]
  · simp only [h1, if_false, plainTable]

/-- C3 at the token `proxy.local:8080` and the host `proxy.local`: the port `8080`
matches and the port `443` does not. -/
theorem C3_host_port_token_witness :
    tokenMatches plainTable "proxy.local".toList "8080".toList "proxy.local:8080".toList true
        = true ∧
    ¬ tokenMatches plainTable "proxy.local".toList "443".toList "proxy.local:8080".toList true
        = true :=
  ⟨(C3_host_port_token plainTable plainTable_idem "proxy.local".toList "8080".toList
      "proxy.local:8080".toList "proxy.local".toList "8080".toList true
      (by decide) (by decide) (by decide)).mpr ⟨rfl, by decide⟩,
   fun h => absurd ((C3_host_port_token plainTable plainTable_idem "proxy.local".toList
      "443".toList "proxy.local:8080".toList "proxy.local".toList "8080".toList true
      (by decide) (by decide) (by decide)).mp h).1 (by decide)⟩

/-! ## Lemmas on the loops of `EvaluateNoProxy` -/

theorem normalizeTokens_spec (table : Char → Char) (raw : List Str) :
    ∀ (seen tokens : List Str), (∀ x, x ∈ seen ↔ x ∈ tokens) → tokens.Nodup →
      (∀ x ∈ tokens, x ≠ []) →
      (normalizeTokens table raw seen tokens).Nodup ∧
      (∀ t, t ∈ normalizeTokens table raw seen tokens ↔
        (t ∈ tokens ∨ (t ≠ [] ∧ ∃ r ∈ raw, normalizeToken table r = t))) := by
  induction raw with
  | nil =>
    intro seen tokens _ hnd _
    simp [normalizeTokens, hnd]
  | cons r rest ih =>
    intro seen tokens hseen hnd hne
    simp only [normalizeTokens]
    by_cases h1 : normalizeToken table r = []
    · simp only [h1, if_true]
      obtain ⟨a, b⟩ := ih seen tokens hseen hnd hne
      refine ⟨a, fun t => ?_⟩
      rw [b t]
      constructor
      · rintro (h | ⟨h, x, hx, e⟩)
        · exact Or.inl h
        · exact Or.inr ⟨h, x, List.mem_cons_of_mem _ hx, e⟩
      · rintro (h | ⟨h, x, hx, e⟩)
        · exact Or.inl h
        · rcases List.mem_cons.mp hx with rfl | hx
          · exact absurd (e ▸ h1) h
          · exact Or.inr ⟨h, x, hx, e⟩
    · by_cases h2 : normalizeToken table r ∈ seen
      · simp only [h1, h2, if_true, if_false]
        obtain ⟨a, b⟩ := ih seen tokens hseen hnd hne
        refine ⟨a, fun t => ?_⟩
        rw [b t]
        constructor
        · rintro (h | ⟨h, x, hx, e⟩)
          · exact Or.inl h
          · exact Or.inr ⟨h, x, List.mem_cons_of_mem _ hx, e⟩
        · rintro (h | ⟨h, x, hx, e⟩)
          · exact Or.inl h
          · rcases List.mem_cons.mp hx with rfl | hx
            · exact Or.inl (e ▸ (hseen _).mp h2)
            · exact Or.inr ⟨h, x, hx, e⟩
      · simp only [h1, h2, if_false]
        have hnot : normalizeToken table r ∉ tokens := fun h => h2 ((hseen _).mpr h)
        have hseen2 : ∀ x, x ∈ normalizeToken table r :: seen ↔
            x ∈ tokens ++ [normalizeToken table r] := by
          intro x
          simp only [List.mem_cons, List.mem_append, List.mem_singleton, hseen x]
          tauto
        have hnd2 : (tokens ++ [normalizeToken table r]).Nodup := by
          rw [List.nodup_append]
          refine ⟨hnd, List.nodup_singleton _, ?_⟩
          intro x hx hx2
          rw [List.mem_singleton] at hx2
          exact hnot (hx2 ▸ hx)
        have hne2 : ∀ x ∈ tokens ++ [normalizeToken table r], x ≠ [] := by
          intro x hx
          rcases List.mem_append.mp hx with hx | hx
          · exact hne x hx
          · rw [List.mem_singleton] at hx
            exact hx ▸ h1
        obtain ⟨a, b⟩ := ih _ _ hseen2 hnd2 hne2
        refine ⟨a, fun t => ?_⟩
        rw [b t]
        constructor
        · rintro (h | ⟨h, x, hx, e⟩)
          · rcases List.mem_append.mp h with h | h
            · exact Or.inl h
            · rw [List.mem_singleton] at h
              exact Or.inr ⟨h ▸ h1, r, List.mem_cons_self _ _, h.symm⟩
          · exact Or.inr ⟨h, x, List.mem_cons_of_mem _ hx, e⟩
        · rintro (h | ⟨h, x, hx, e⟩)
          · exact Or.inl (List.mem_append_left _ h)
          · rcases List.mem_cons.mp hx with rfl | hx
            · exact Or.inl (List.mem_append_right _ (List.mem_singleton.mpr e.symm))
            · exact Or.inr ⟨h, x, hx, e⟩

theorem normalizeTokens_firstSeen (table : Char → Char) (raw : List Str) :
    ∀ (seen tokens : List Str), (∀ x, x ∈ seen ↔ x ∈ tokens) →
      normalizeTokens table raw seen tokens
        = tokens ++ (firstSeen ((raw.map (normalizeToken table)).filter (fun n => n ≠ []))).filter
            (fun y => decide (y ∉ tokens)) := by
  induction raw with
  | nil =>
    intro seen tokens _
    simp [normalizeTokens, firstSeen]
  | cons r rest ih =>
    intro seen tokens hseen
    by_cases h1 : normalizeToken table r = []
    · rw [normalizeTokens]
      simp only [h1, if_true]
      rw [ih seen tokens hseen]
      simp [List.filter_cons, h1]
    · by_cases h2 : normalizeToken table r ∈ seen
      · have h3 : normalizeToken table r ∈ tokens := (hseen _).mp h2
        rw [normalizeTokens]
        simp only [h1, h2, if_true, if_false]
        rw [ih seen tokens hseen]
        congr 1
        simp only [List.map_cons, List.filter_cons, h1, decide_not, decide_False, Bool.not_false,
          if_true, firstSeen, h3, decide_True, Bool.not_true, Bool.false_eq_true, if_false,
          List.filter_filter]
        apply List.filter_congr
        intro y _
        by_cases hy : y ∈ tokens
        · simp [hy]
        · have : y ≠ normalizeToken table r := fun e => hy (e ▸ h3)
          simp [hy, this]
      · have h3 : normalizeToken table r ∉ tokens := fun h => h2 ((hseen _).mpr h)
        have hseen2 : ∀ x, x ∈ normalizeToken table r :: seen ↔
            x ∈ tokens ++ [normalizeToken table r] := by
          intro x
          simp only [List.mem_cons, List.mem_append, List.mem_singleton, hseen x]
          tauto
        rw [normalizeTokens]
        simp only [h1, h2, if_false]
        rw [ih _ _ hseen2, List.append_assoc]
        congr 1
        simp only [List.map_cons, List.filter_cons, h1, decide_not, decide_False, Bool.not_false,
          if_true, firstSeen, h3, List.filter_filter, List.singleton_append]
        congr 1
        apply List.filter_congr
        intro y _
        by_cases hy : y ∈ tokens
        · simp [hy]
        · by_cases hy2 : y = normalizeToken table r
          · simp [hy2]
          · simp [hy, hy2]

theorem noProxyTokens_firstSeen (table : Char → Char) (eff : Effective) :
    noProxyTokens table eff = firstSeen (normalizedRawTokens table eff) := by
  unfold noProxyTokens normalizedRawTokens
  have h := normalizeTokens_firstSeen table
    (splitNoProxyList (strings.TrimSpace eff.NoProxy.Value)) [] [] (fun _ => Iff.rfl)
  simpa using h

theorem noProxyTokens_spec (table : Char → Char) (eff : Effective) :
    (noProxyTokens table eff).Nodup ∧
    (∀ t, t ∈ noProxyTokens table eff ↔
      (t ≠ [] ∧ ∃ r ∈ splitNoProxyList (strings.TrimSpace eff.NoProxy.Value),
        normalizeToken table r = t)) := by
  obtain ⟨a, b⟩ := normalizeTokens_spec table
    (splitNoProxyList (strings.TrimSpace eff.NoProxy.Value)) [] []
    (fun _ => Iff.rfl) List.nodup_nil (fun _ h => absurd h (List.not_mem_nil _))
  refine ⟨a, fun t => ?_⟩
  have := b t
  simp only [List.not_mem_nil, false_or] at this
  exact this

theorem matchTokens_spec (table : Char → Char) (host port : Str) (nonExact : Bool)
    (check : EndpointCheck) (tokens : List Str) :
    ((matchTokens table host port nonExact tokens check).Bypassed = true ∧
      (matchTokens table host port nonExact tokens check).Host = check.Host ∧
      (matchTokens table host port nonExact tokens check).Port = check.Port ∧
      (matchTokens table host port nonExact tokens check).Endpoint = check.Endpoint ∧
      ∃ pre post, tokens = pre ++ (matchTokens table host port nonExact tokens check).Matched :: post ∧
        (∀ t ∈ pre, tokenMatches table host port t nonExact = false) ∧
        tokenMatches table host port
          (matchTokens table host port nonExact tokens check).Matched nonExact = true) ∨
    (matchTokens table host port nonExact tokens check = check ∧
      ∀ t ∈ tokens, tokenMatches table host port t nonExact = false) := by
  induction tokens with
  | nil => right; simp [matchTokens]
  | cons t ts ih =>
    by_cases h : tokenMatches table host port t nonExact = true
    · left
      simp only [matchTokens, h, if_true, true_and]
      exact ⟨[], ts, rfl, fun _ hx => absurd hx (List.not_mem_nil _), trivial⟩
    · have hf : tokenMatches table host port t nonExact = false := by
        simpa using h
      have step : matchTokens table host port nonExact (t :: ts) check
          = matchTokens table host port nonExact ts check := by
        simp [matchTokens, hf]
      rw [step]
      rcases ih with ⟨a, b, c, d, pre, post, e, f, g⟩ | ⟨a, b⟩
      · left
        refine ⟨a, b, c, d, t :: pre, post, ?_, ?_, g⟩
        · rw [List.cons_append, ← e]
        · intro x hx
          rcases List.mem_cons.mp hx with rfl | hx
          · exact hf
          · exact f x hx
      · right
        refine ⟨a, ?_⟩
        intro x hx
        rcases List.mem_cons.mp hx with rfl | hx
        · exact hf
        · exact b x hx

theorem evaluateEndpoints_acc (table : Char → Char) (parse : URLParser) (tokens : List Str)
    (nonExact : Bool) (eps : List Endpoint) :
    ∀ matrix, evaluateEndpoints table parse tokens nonExact eps matrix
      = matrix ++ evaluateEndpoints table parse tokens nonExact eps [] := by
  induction eps with
  | nil => intro matrix; simp [evaluateEndpoints]
  | cons ep eps ih =>
    intro matrix
    simp only [evaluateEndpoints]
    cases hp : parse ep.URL with
    | none => exact ih matrix
    | some u =>
      by_cases hh : u.Host = []
      · simp only [hh, if_true]
        exact ih matrix
      · simp only [hh, if_false]
        rw [ih (matrix ++ _), ih ([] ++ _)]
        simp

theorem mem_evaluateEndpoints (table : Char → Char) (parse : URLParser) (tokens : List Str)
    (nonExact : Bool) (eps : List Endpoint) (row : EndpointCheck)
    (hrow : row ∈ evaluateEndpoints table parse tokens nonExact eps []) :
    ∃ ep ∈ eps, ∃ u, parse ep.URL = some u ∧ u.Host ≠ [] ∧
      row = matchTokens table u.Hostname
        (if u.Port = [] then getDefaultPortForScheme table u.Scheme else u.Port) nonExact tokens
        { Endpoint := ep, Host := u.Hostname,
          Port := if u.Port = [] then getDefaultPortForScheme table u.Scheme else u.Port,
          Bypassed := false, Matched := [] } := by
  induction eps with
  | nil => simp [evaluateEndpoints] at hrow
  | cons ep eps ih =>
    simp only [evaluateEndpoints] at hrow
    cases hp : parse ep.URL with
    | none =>
      rw [hp] at hrow
      obtain ⟨e, he, r⟩ := ih hrow
      exact ⟨e, List.mem_cons_of_mem _ he, r⟩
    | some u =>
      rw [hp] at hrow
      by_cases hh : u.Host = []
      · simp only [hh, if_true] at hrow
        obtain ⟨e, he, r⟩ := ih hrow
        exact ⟨e, List.mem_cons_of_mem _ he, r⟩
      · simp only [hh, if_false] at hrow
        rw [evaluateEndpoints_acc] at hrow
        rcases List.mem_append.mp hrow with h | h
        · simp only [List.nil_append, List.mem_singleton] at h
          exact ⟨ep, List.mem_cons_self _ _, u, hp, hh, h⟩
        · obtain ⟨e, he, r⟩ := ih h
          exact ⟨e, List.mem_cons_of_mem _ he, r⟩

theorem fieldsLoop_mem (f : Char → Bool) (s : Str) :
    ∀ cur : Str, (∀ c ∈ cur, f c = false) →
      ∀ fld ∈ strings.fieldsLoop f s cur, ∀ c ∈ fld, f c = false ∧ (c ∈ s ∨ c ∈ cur) := by
  induction s with
  | nil =>
    intro cur hcur fld hfld c hc
    by_cases h : cur = []
    · simp [strings.fieldsLoop, h] at hfld
    · simp only [strings.fieldsLoop, h, if_false, List.mem_singleton] at hfld
      subst hfld
      have hc2 : c ∈ cur := List.mem_reverse.mp hc
      exact ⟨hcur c hc2, Or.inr hc2⟩
  | cons x xs ih =>
    intro cur hcur fld hfld c hc
    simp only [strings.fieldsLoop] at hfld
    by_cases hx : f x = true
    · simp only [hx, if_true] at hfld
      have hnil : ∀ c ∈ ([] : Str), f c = false := fun _ h => absurd h (List.not_mem_nil _)
      by_cases h : cur = []
      · simp only [h, if_true] at hfld
        obtain ⟨a, b⟩ := ih [] hnil fld hfld c hc
        rcases b with b | b
        · exact ⟨a, Or.inl (List.mem_cons_of_mem _ b)⟩
        · exact absurd b (List.not_mem_nil _)
      · simp only [h, if_false] at hfld
        rcases List.mem_cons.mp hfld with e | hfld
        · subst e
          have hc2 : c ∈ cur := List.mem_reverse.mp hc
          exact ⟨hcur c hc2, Or.inr hc2⟩
        · obtain ⟨a, b⟩ := ih [] hnil fld hfld c hc
          rcases b with b | b
          · exact ⟨a, Or.inl (List.mem_cons_of_mem _ b)⟩
          · exact absurd b (List.not_mem_nil _)
    · have hxf : f x = false := by simpa using hx
      simp only [hx, if_false] at hfld
      have hcur2 : ∀ c ∈ x :: cur, f c = false := by
        intro y hy
        rcases List.mem_cons.mp hy with rfl | hy
        · exact hxf
        · exact hcur y hy
      obtain ⟨a, b⟩ := ih (x :: cur) hcur2 fld hfld c hc
      rcases b with b | b
      · exact ⟨a, Or.inl (List.mem_cons_of_mem _ b)⟩
      · rcases List.mem_cons.mp b with rfl | b
        · exact ⟨a, Or.inl (List.mem_cons_self _ _)⟩
        · exact ⟨a, Or.inr b⟩

theorem TrimSpace_subset (s : Str) : ∀ c ∈ strings.TrimSpace s, c ∈ s := by
  intro c hc
  unfold strings.TrimSpace at hc
  exact (List.dropWhile_suffix _).subset ((List.rdropWhile_prefix _ _).subset hc)

theorem TrimSpace_all_space (s : Str) (h : ∀ c ∈ s, unicode.IsSpace c = true) :
    strings.TrimSpace s = [] := by
  unfold strings.TrimSpace
  have : s.dropWhile unicode.IsSpace = [] := List.dropWhile_eq_nil_iff.mpr h
  rw [this]
  rfl

theorem splitNoProxyList_blank (s : Str)
    (h : ∀ c ∈ s, unicode.IsSpace c = true ∨ isNoProxySeparator c = true) :
    splitNoProxyList s = [] := by
  unfold splitNoProxyList
  rw [List.filter_eq_nil_iff]
  intro tok htok
  obtain ⟨fld, hfld, rfl⟩ := List.mem_map.mp htok
  have hall : ∀ c ∈ fld, unicode.IsSpace c = true := by
    intro c hc
    obtain ⟨a, b⟩ := fieldsLoop_mem isNoProxySeparator s []
      (fun _ hx => absurd hx (List.not_mem_nil _)) fld hfld c hc
    rcases b with b | b
    · rcases h c b with h1 | h1
      · exact h1
      · rw [a] at h1
        exact absurd h1 (by decide)
    · exact absurd b (List.not_mem_nil _)
  simp [TrimSpace_all_space fld hall]

theorem bypassFindings_none (matrix : List EndpointCheck)
    (h : ∀ row ∈ matrix, row.Bypassed = false) (findings : List Finding) :
    bypassFindings matrix findings = findings := by
  induction matrix with
  | nil => rfl
  | cons row rest ih =>
    have hr : row.Bypassed = false := h row (List.mem_cons_self _ _)
    simp only [bypassFindings, hr, Bool.false_eq_true, if_false]
    exact ih (fun r hr2 => h r (List.mem_cons_of_mem _ hr2))

/-! ## Claims on the bypass matrix -/

theorem EvaluateNoProxy_row_spec (table : Char → Char) (parse : URLParser) (eff : Effective)
    (eps : List Endpoint) (row : EndpointCheck)
    (hrow : row ∈ EvaluateNoProxy table parse eff eps) :
    (row.Bypassed = true ↔
      ∃ t ∈ noProxyTokens table eff,
        tokenMatches table row.Host row.Port t eff.NonExactNoProxy = true) ∧
    (row.Bypassed = true →
      row.Matched ≠ [] ∧
      ∃ pre post, noProxyTokens table eff = pre ++ row.Matched :: post ∧
        (∀ t ∈ pre, tokenMatches table row.Host row.Port t eff.NonExactNoProxy = false) ∧
        tokenMatches table row.Host row.Port row.Matched eff.NonExactNoProxy = true) ∧
    (row.Bypassed = false → row.Matched = []) := by
  obtain ⟨_, hmem⟩ := noProxyTokens_spec table eff
  obtain ⟨ep, _, u, _, _, hr⟩ := mem_evaluateEndpoints table parse _ _ eps row hrow
  rcases matchTokens_spec table u.Hostname
      (if u.Port = [] then getDefaultPortForScheme table u.Scheme else u.Port)
      eff.NonExactNoProxy
      { Endpoint := ep, Host := u.Hostname,
        Port := if u.Port = [] then getDefaultPortForScheme table u.Scheme else u.Port,
        Bypassed := false, Matched := [] }
      (noProxyTokens table eff) with ⟨a, b, c, _, pre, post, e, f, g⟩ | ⟨a, b⟩
  · rw [← hr] at a b c e g
    simp only at b c
    rw [b, c]
    have hin : row.Matched ∈ noProxyTokens table eff := by
      rw [e]
      exact List.mem_append_right _ (List.mem_cons_self _ _)
    refine ⟨⟨fun _ => ⟨row.Matched, hin, g⟩, fun _ => a⟩, fun _ => ?_, fun h => ?_⟩
    · exact ⟨((hmem _).mp hin).1, pre, post, e, f, g⟩
    · rw [a] at h
      exact absurd h (by decide)
  · rw [← hr] at a
    subst a
    refine ⟨⟨fun h => absurd h (by simp), fun ⟨t, ht, hm⟩ => ?_⟩, fun h => absurd h (by simp),
      fun _ => rfl⟩
    rw [b t ht] at hm
    exact absurd hm (by decide)

/-- C4: the token list is the normalized exclusion list with every later duplicate
removed, in first-seen order, so it has no duplicate and no empty token; a row of
`EvaluateNoProxy` is bypassed exactly when some token of that list matches its host
and port; a bypassed row records the first such token of the list, which is
non-empty; a row that is not bypassed records the empty string. -/
theorem C4_first_match_decides (table : Char → Char) (parse : URLParser) (eff : Effective)
    (eps : List Endpoint) (row : EndpointCheck)
    (hrow : row ∈ EvaluateNoProxy table parse eff eps) :
    noProxyTokens table eff = firstSeen (normalizedRawTokens table eff) ∧
    (noProxyTokens table eff).Nodup ∧
    (∀ t, t ∈ noProxyTokens table eff ↔
      (t ≠ [] ∧ ∃ r ∈ splitNoProxyList (strings.TrimSpace eff.NoProxy.Value),
        normalizeToken table r = t)) ∧
    (row.Bypassed = true ↔
      ∃ t ∈ noProxyTokens table eff,
        tokenMatches table row.Host row.Port t eff.NonExactNoProxy = true) ∧
    (row.Bypassed = true →
      row.Matched ≠ [] ∧
      ∃ pre post, noProxyTokens table eff = pre ++ row.Matched :: post ∧
        (∀ t ∈ pre, tokenMatches table row.Host row.Port t eff.NonExactNoProxy = false) ∧
        tokenMatches table row.Host row.Port row.Matched eff.NonExactNoProxy = true) ∧
    (row.Bypassed = false → row.Matched = []) :=
  ⟨noProxyTokens_firstSeen table eff, (noProxyTokens_spec table eff).1,
    (noProxyTokens_spec table eff).2, EvaluateNoProxy_row_spec table parse eff eps row hrow⟩

/-- C4 at the exclusion list `.example.com, proxy.local:8080`: the row of the
endpoint `api` is in the matrix, is bypassed, and a token of the list matches it. -/
theorem C4_first_match_decides_witness :
    sampleRow ∈ EvaluateNoProxy plainTable sampleParse
      (sampleEffective ".example.com, proxy.local:8080".toList false) sampleEndpoints ∧
    (sampleRow.Bypassed = true ↔
      ∃ t ∈ noProxyTokens plainTable
          (sampleEffective ".example.com, proxy.local:8080".toList false),
        tokenMatches plainTable sampleRow.Host sampleRow.Port t false = true) :=
  ⟨by decide,
   (C4_first_match_decides plainTable sampleParse
      (sampleEffective ".example.com, proxy.local:8080".toList false) sampleEndpoints
      sampleRow (by decide)).2.2.2.1⟩

/-- C5: the token `*` matches every host and port in either mode, and when the
exclusion list has the token `*` among its tokens every row of `EvaluateNoProxy`
is bypassed. -/
theorem C5_wildcard_bypasses_all (table : Char → Char) :
    (∀ (host port : Str) (nonExact : Bool),
      tokenMatches table host port ['*'] nonExact = true) ∧
    (∀ (parse : URLParser) (eff : Effective) (eps : List Endpoint),
      ['*'] ∈ splitNoProxyList (strings.TrimSpace eff.NoProxy.Value) →
      ∀ row ∈ EvaluateNoProxy table parse eff eps, row.Bypassed = true) := by
  have hstar : ∀ (host port : Str) (nonExact : Bool),
      tokenMatches table host port ['*'] nonExact = true := fun _ _ _ => rfl
  refine ⟨hstar, ?_⟩
  intro parse eff eps hin row hrow
  have hmem : ['*'] ∈ noProxyTokens table eff :=
    ((noProxyTokens_spec table eff).2 ['*']).mpr ⟨by decide, ['*'], hin, rfl⟩
  exact (EvaluateNoProxy_row_spec table parse eff eps row hrow).1.mpr
    ⟨['*'], hmem, hstar _ _ _⟩

/-- C5 at the exclusion list `a.com,*`: both parsed endpoints are bypassed. -/
theorem C5_wildcard_bypasses_all_witness :
    ['*'] ∈ splitNoProxyList (strings.TrimSpace (sampleEffective "a.com,*".toList false).NoProxy.Value) ∧
    ∀ row ∈ EvaluateNoProxy plainTable sampleParse (sampleEffective "a.com,*".toList false)
      sampleEndpoints, row.Bypassed = true :=
  ⟨by decide,
   (C5_wildcard_bypasses_all plainTable).2 sampleParse (sampleEffective "a.com,*".toList false)
     sampleEndpoints (by decide)⟩

/-- C6: when the exclusion list value is empty, or holds only white space and the
separators comma, space, tab, newline and carriage return, no row of
`EvaluateNoProxy` is bypassed or records a token, in either matching mode, and the
bypass loop of `Run` adds no finding. -/
theorem C6_empty_exclusions_bypass_nothing (table : Char → Char) (parse : URLParser)
    (eff : Effective) (eps : List Endpoint)
    (hval : ∀ c ∈ eff.NoProxy.Value, unicode.IsSpace c = true ∨ isNoProxySeparator c = true) :
    (∀ row ∈ EvaluateNoProxy table parse eff eps, row.Bypassed = false ∧ row.Matched = []) ∧
    (∀ findings, bypassFindings (EvaluateNoProxy table parse eff eps) findings = findings) := by
  have hraw : splitNoProxyList (strings.TrimSpace eff.NoProxy.Value) = [] :=
    splitNoProxyList_blank _ (fun c hc => hval c (TrimSpace_subset _ c hc))
  have htok : noProxyTokens table eff = [] := by
    simp [noProxyTokens, hraw, normalizeTokens]
  have hrows : ∀ row ∈ EvaluateNoProxy table parse eff eps,
      row.Bypassed = false ∧ row.Matched = [] := by
    intro row hrow
    obtain ⟨ep, _, u, _, _, hr⟩ := mem_evaluateEndpoints table parse _ _ eps row hrow
    rw [htok] at hr
    subst hr
    exact ⟨rfl, rfl⟩
  exact ⟨hrows, bypassFindings_none _ (fun row hrow => (hrows row hrow).1)⟩

/-- C6 at the empty exclusion list and at the list `" ,\t"`, with the non-exact mode
on: the bypass loop adds nothing to an empty findings list. -/
theorem C6_empty_exclusions_bypass_nothing_witness :
    bypassFindings (EvaluateNoProxy plainTable sampleParse (sampleEffective [] true)
      sampleEndpoints) [] = [] ∧
    bypassFindings (EvaluateNoProxy plainTable sampleParse
      (sampleEffective [' ', ',', '\t'] true) sampleEndpoints) [] = [] :=
  ⟨(C6_empty_exclusions_bypass_nothing plainTable sampleParse (sampleEffective [] true)
      sampleEndpoints (by decide)).2 [],
   (C6_empty_exclusions_bypass_nothing plainTable sampleParse
      (sampleEffective [' ', ',', '\t'] true) sampleEndpoints (by decide)).2 []⟩

/-! ## The severity rollup -/

theorem rollupLoop_red_iff (fs : List Finding) :
    ∀ s : Severity, s ≠ SeverityRed →
      (rollupLoop fs s = SeverityRed ↔ ∃ f ∈ fs, f.Severity = SeverityRed) := by
  induction fs with
  | nil =>
    intro s hs
    simp [rollupLoop, hs]
  | cons f rest ih =>
    intro s hs
    by_cases hr : f.Severity = SeverityRed
    · simp [rollupLoop, hr]
    · by_cases hy : f.Severity = SeverityYellow ∧ s = SeverityGreen
      · have hyr : SeverityYellow ≠ SeverityRed := by decide
        rw [rollupLoop, if_neg hr, if_pos hy, ih SeverityYellow hyr]
        simp only [List.mem_cons, exists_eq_or_imp, hr, false_or]
      · rw [rollupLoop, if_neg hr, if_neg hy, ih s hs]
        simp only [List.mem_cons, exists_eq_or_imp, hr, false_or]

theorem rollupLoop_yellow_stays (fs : List Finding)
    (hno : ∀ f ∈ fs, f.Severity ≠ SeverityRed) :
    rollupLoop fs SeverityYellow = SeverityYellow := by
  induction fs with
  | nil => rfl
  | cons f rest ih =>
    have hr : f.Severity ≠ SeverityRed := hno f (List.mem_cons_self _ _)
    have hg : ¬ (SeverityYellow = SeverityGreen) := by decide
    rw [rollupLoop, if_neg hr, if_neg (fun h => hg h.2)]
    exact ih (fun g hg2 => hno g (List.mem_cons_of_mem _ hg2))

theorem rollupLoop_green_yellow_iff (fs : List Finding)
    (hno : ∀ f ∈ fs, f.Severity ≠ SeverityRed) :
    (rollupLoop fs SeverityGreen = SeverityYellow ↔ ∃ f ∈ fs, f.Severity = SeverityYellow) ∧
    ((¬ ∃ f ∈ fs, f.Severity = SeverityYellow) → rollupLoop fs SeverityGreen = SeverityGreen) := by
  induction fs with
  | nil =>
    have hg : ¬ (SeverityGreen = SeverityYellow) := by decide
    simp [rollupLoop, hg]
  | cons f rest ih =>
    have hr : f.Severity ≠ SeverityRed := hno f (List.mem_cons_self _ _)
    have hrest : ∀ g ∈ rest, g.Severity ≠ SeverityRed :=
      fun g hg2 => hno g (List.mem_cons_of_mem _ hg2)
    by_cases hy : f.Severity = SeverityYellow
    · rw [rollupLoop, if_neg hr, if_pos ⟨hy, rfl⟩, rollupLoop_yellow_stays rest hrest]
      exact ⟨⟨fun _ => ⟨f, List.mem_cons_self _ _, hy⟩, fun _ => rfl⟩,
        fun h => absurd ⟨f, List.mem_cons_self _ _, hy⟩ h⟩
    · rw [rollupLoop, if_neg hr, if_neg (fun h => hy h.1)]
      simp only [List.mem_cons, exists_eq_or_imp, hy, false_or]
      exact ih hrest

/-- C7: the rollup of a findings list is red exactly when some finding is red;
failing that it is yellow exactly when some finding is yellow; failing both it is
green.  The summary `Run` returns is the rollup of the findings it returns, the
empty list gives green, and a list with a red finding at any position gives red. -/
theorem C7_severity_rollup :
    (∀ fs : List Finding,
      (rollupLoop fs SeverityGreen = SeverityRed ↔ ∃ f ∈ fs, f.Severity = SeverityRed) ∧
      ((¬ ∃ f ∈ fs, f.Severity = SeverityRed) →
        (rollupLoop fs SeverityGreen = SeverityYellow ↔
          ∃ f ∈ fs, f.Severity = SeverityYellow)) ∧
      ((¬ ∃ f ∈ fs, f.Severity = SeverityRed) → (¬ ∃ f ∈ fs, f.Severity = SeverityYellow) →
        rollupLoop fs SeverityGreen = SeverityGreen)) ∧
    (∀ (w : World) (opts : Options),
      (Run w opts).Summary = rollupLoop (Run w opts).Findings SeverityGreen) ∧
    rollupLoop [] SeverityGreen = SeverityGreen ∧
    (∀ (pre post : List Finding) (f : Finding), f.Severity = SeverityRed →
      rollupLoop (pre ++ f :: post) SeverityGreen = SeverityRed) := by
  have hgr : SeverityGreen ≠ SeverityRed := by decide
  refine ⟨fun fs => ⟨rollupLoop_red_iff fs SeverityGreen hgr, fun h => ?_, fun h h2 => ?_⟩,
    fun _ _ => rfl, rfl, fun pre post f hf => ?_⟩
  · exact (rollupLoop_green_yellow_iff fs (fun f hf e => h ⟨f, hf, e⟩)).1
  · exact (rollupLoop_green_yellow_iff fs (fun f hf e => h ⟨f, hf, e⟩)).2 h2
  · exact (rollupLoop_red_iff _ SeverityGreen hgr).mpr
      ⟨f, List.mem_append_right _ (List.mem_cons_self _ _), hf⟩

/-- C7 at three lists: yellow then red gives red, yellow alone gives yellow, and a
list of green findings gives green. -/
theorem C7_severity_rollup_witness :
    rollupLoop [sampleFinding SeverityYellow, sampleFinding SeverityRed] SeverityGreen
      = SeverityRed ∧
    rollupLoop [sampleFinding SeverityGreen, sampleFinding SeverityYellow] SeverityGreen
      = SeverityYellow ∧
    rollupLoop [sampleFinding SeverityGreen] SeverityGreen = SeverityGreen :=
  ⟨(C7_severity_rollup.1 _).1.mpr ⟨sampleFinding SeverityRed, by decide, rfl⟩,
   ((C7_severity_rollup.1 _).2.1 (by decide)).mpr ⟨sampleFinding SeverityYellow, by decide, rfl⟩,
   (C7_severity_rollup.1 _).2.2 (by decide) (by decide)⟩

/-! ## Lemmas on the conflict detector -/

theorem dropWhile_rdropWhile_fixed (p : Char → Bool) (s : Str) :
    List.dropWhile p ((s.dropWhile p).rdropWhile p) = (s.dropWhile p).rdropWhile p := by
  cases hd : s.dropWhile p with
  | nil => simp [List.rdropWhile_nil]
  | cons x rest =>
    have hx : p x = false := by
      have h := List.head?_dropWhile_not p s
      rw [hd] at h
      simpa using h
    obtain ⟨t, ht⟩ := List.rdropWhile_prefix p (x :: rest)
    cases hr : List.rdropWhile p (x :: rest) with
    | nil => rfl
    | cons y more =>
      rw [hr, List.cons_append] at ht
      have hy : y = x := (List.cons.inj ht).1
      subst hy
      simp [List.dropWhile_cons, hx]

theorem TrimSpace_idem (s : Str) :
    strings.TrimSpace (strings.TrimSpace s) = strings.TrimSpace s := by
  unfold strings.TrimSpace
  rw [dropWhile_rdropWhile_fixed]
  exact List.rdropWhile_idempotent _ _

theorem dedupByValue_acc (l : List ValueWithSource) :
    ∀ (uniq : List (Str × Source)) (out : List ValueWithSource),
      dedupByValue l uniq out = out ++ dedupByValue l uniq [] := by
  induction l with
  | nil => intro uniq out; simp [dedupByValue]
  | cons x rest ih =>
    intro uniq out
    by_cases h : x.Value ∈ uniq.map Prod.fst
    · rw [dedupByValue, if_pos h, dedupByValue, if_pos h]
      exact ih uniq out
    · rw [dedupByValue, if_neg h, dedupByValue, if_neg h, ih _ (out ++ [x]), ih _ ([] ++ [x])]
      simp

theorem dedupByValue_spec (l : List ValueWithSource) :
    ∀ uniq : List (Str × Source),
      (dedupByValue l uniq []).Sublist l ∧
      ((dedupByValue l uniq []).map (fun vv => vv.Value)).Nodup ∧
      (∀ e ∈ dedupByValue l uniq [], e.Value ∉ uniq.map Prod.fst) ∧
      (∀ vv ∈ l, vv.Value ∉ uniq.map Prod.fst →
        ∃ e, l.find? (fun x => decide (x.Value = vv.Value)) = some e ∧
          e ∈ dedupByValue l uniq []) := by
  induction l with
  | nil =>
    intro uniq
    simp [dedupByValue]
  | cons x rest ih =>
    intro uniq
    by_cases h : x.Value ∈ uniq.map Prod.fst
    · rw [dedupByValue, if_pos h]
      obtain ⟨a, b, c, d⟩ := ih uniq
      refine ⟨a.trans (List.sublist_cons_self _ _), b, c, ?_⟩
      intro vv hvv hnot
      have hne : ¬ x.Value = vv.Value := fun e => hnot (e ▸ h)
      have hin : vv ∈ rest := by
        rcases List.mem_cons.mp hvv with e | e
        · exact absurd (e ▸ rfl) hne
        · exact e
      obtain ⟨e, he, hmem⟩ := d vv hin hnot
      refine ⟨e, ?_, hmem⟩
      rw [List.find?_cons_of_neg _ (by simpa using hne)]
      exact he
    · rw [dedupByValue, if_neg h, dedupByValue_acc, List.nil_append, List.singleton_append]
      obtain ⟨a, b, c, d⟩ := ih ((x.Value, x.Source) :: uniq)
      have hx : x.Value ∉ (dedupByValue rest ((x.Value, x.Source) :: uniq) []).map
          (fun vv => vv.Value) := by
        intro hin
        obtain ⟨e, he, hev⟩ := List.mem_map.mp hin
        exact c e he (by simp [hev])
      refine ⟨a.cons₂ x, ?_, ?_, ?_⟩
      · rw [List.map_cons, List.nodup_cons]
        exact ⟨hx, b⟩
      · intro e he
        rcases List.mem_cons.mp he with rfl | he
        · exact h
        · intro hin
          exact c e he (List.mem_cons_of_mem _ hin)
      · intro vv hvv hnot
        by_cases hv : x.Value = vv.Value
        · exact ⟨x, List.find?_cons_of_pos _ (by simpa using hv), List.mem_cons_self _ _⟩
        · have hin : vv ∈ rest := by
            rcases List.mem_cons.mp hvv with e | e
            · exact absurd (e ▸ rfl) hv
            · exact e
          have hnot2 : vv.Value ∉ ((x.Value, x.Source) :: uniq).map Prod.fst := by
            intro hin2
            rcases List.mem_cons.mp (by simpa using hin2 :
              vv.Value ∈ x.Value :: uniq.map Prod.fst) with e | e
            · exact hv e.symm
            · exact hnot e
          obtain ⟨e, he, hmem⟩ := d vv hin hnot2
          refine ⟨e, ?_, List.mem_cons_of_mem _ hmem⟩
          rw [List.find?_cons_of_neg _ (by simpa using hv)]
          exact he

theorem collect_spec (src : Sources) (key : Str) :
    (collect src key).Sublist (collectValues src key) ∧
    ((collect src key).map (fun vv => vv.Value)).Nodup ∧
    (∀ vv ∈ collectValues src key,
      ∃ e, (collectValues src key).find? (fun x => decide (x.Value = vv.Value)) = some e ∧
        e ∈ collect src key) := by
  obtain ⟨a, b, _, d⟩ := dedupByValue_spec (collectValues src key) []
  exact ⟨a, b, fun vv hvv => d vv hvv (by simp)⟩

theorem collectValues_https (src : Sources) :
    collectValues src "https".toList =
      if httpsCandidates src = [] then
        (if strings.TrimSpace (src.Getenv "https_proxy".toList) ≠ [] then
          [{ Value := strings.TrimSpace (src.Getenv "https_proxy".toList),
             Source := SourceStdEnv }]
        else [])
      else httpsCandidates src := by
  have hk : ¬ ("https".toList = "http".toList) := by decide
  unfold collectValues httpsCandidates sourceCandidates
  generalize strings.TrimSpace (src.Getenv "DD_PROXY_HTTPS".toList) = v1
  generalize strings.TrimSpace (src.Getenv "HTTPS_PROXY".toList) = v3
  generalize strings.TrimSpace (src.Getenv "https_proxy".toList) = v4
  cases src.Datadog with
  | none =>
    by_cases h1 : v1 = [] <;> by_cases h3 : v3 = [] <;> by_cases h4 : v4 = [] <;>
    simp [h1, h3, h4, hk, List.filter]
  | some cfg =>
    dsimp only
    generalize strings.TrimSpace (cfg "proxy.https".toList) = v2
    by_cases h1 : v1 = [] <;> by_cases h2 : v2 = [] <;> by_cases h3 : v3 = [] <;>
    by_cases h4 : v4 = [] <;>
    simp [h1, h2, h3, h4, hk, List.filter]

theorem collectValues_http (src : Sources) :
    collectValues src "http".toList =
      if httpCandidates src = [] then
        (if strings.TrimSpace (src.Getenv "http_proxy".toList) ≠ [] then
          [{ Value := strings.TrimSpace (src.Getenv "http_proxy".toList),
             Source := SourceStdEnv }]
        else [])
      else httpCandidates src := by
  have hk : ¬ ("http".toList = "https".toList) := by decide
  unfold collectValues httpCandidates sourceCandidates
  generalize strings.TrimSpace (src.Getenv "DD_PROXY_HTTP".toList) = v1
  generalize strings.TrimSpace (src.Getenv "HTTP_PROXY".toList) = v3
  generalize strings.TrimSpace (src.Getenv "http_proxy".toList) = v4
  cases src.Datadog with
  | none =>
    by_cases h1 : v1 = [] <;> by_cases h3 : v3 = [] <;> by_cases h4 : v4 = [] <;>
    simp [h1, h3, h4, hk, List.filter]
  | some cfg =>
    dsimp only
    generalize strings.TrimSpace (cfg "proxy.http".toList) = v2
    by_cases h1 : v1 = [] <;> by_cases h2 : v2 = [] <;> by_cases h3 : v3 = [] <;>
    by_cases h4 : v4 = [] <;>
    simp [h1, h2, h3, h4, hk, List.filter]

theorem mem_sourceCandidates (src : Sources) (ddVar cfgKey stdVar : Str) (vv : ValueWithSource)
    (h : vv ∈ sourceCandidates src ddVar cfgKey stdVar) :
    vv.Value ≠ [] ∧ strings.TrimSpace vv.Value = vv.Value := by
  unfold sourceCandidates at h
  simp only [List.mem_filter, List.mem_append, List.mem_singleton, decide_eq_true_eq] at h
  refine ⟨h.2, ?_⟩
  rcases h.1 with (h1 | h1) | h1
  · rw [h1]
    exact TrimSpace_idem _
  · cases hD : src.Datadog with
    | none => simp [hD] at h1
    | some cfg =>
      simp only [hD, List.mem_singleton] at h1
      rw [h1]
      exact TrimSpace_idem _
  · rw [h1]
    exact TrimSpace_idem _

theorem collectValues_of_two (src : Sources) (key : Str)
    (hkey : key = "https".toList ∨ key = "http".toList)
    (h : keyCandidates src key ≠ []) :
    collectValues src key = keyCandidates src key := by
  rcases hkey with rfl | rfl
  · have hk : keyCandidates src "https".toList = httpsCandidates src := rfl
    rw [hk] at h ⊢
    rw [collectValues_https, if_neg h]
  · have hk : keyCandidates src "http".toList = httpCandidates src := rfl
    rw [hk] at h ⊢
    rw [collectValues_http, if_neg h]

theorem collectValues_length_le_one (src : Sources) (key : Str)
    (hkey : key = "https".toList ∨ key = "http".toList)
    (h : keyCandidates src key = []) :
    (collectValues src key).length ≤ 1 := by
  rcases hkey with rfl | rfl
  · have hk : keyCandidates src "https".toList = httpsCandidates src := rfl
    rw [hk] at h
    rw [collectValues_https, if_pos h]
    split <;> simp
  · have hk : keyCandidates src "http".toList = httpCandidates src := rfl
    rw [hk] at h
    rw [collectValues_http, if_pos h]
    split <;> simp

theorem mem_CollectConflicts (src : Sources) (eff : Effective) (c : Conflict) :
    c ∈ CollectConflicts src eff ↔
      ((c = { Key := "https".toList, Values := collect src "https".toList } ∨
        c = { Key := "http".toList, Values := collect src "http".toList }) ∧
       2 ≤ c.Values.length) := by
  unfold CollectConflicts
  by_cases h1 : (collect src "https".toList).length > 1 <;>
  by_cases h2 : (collect src "http".toList).length > 1
  · simp only [h1, h2, if_true, List.nil_append, List.cons_append, List.mem_cons,
      List.mem_singleton, List.not_mem_nil, or_false]
    constructor
    · rintro (rfl | rfl)
      · exact ⟨Or.inl rfl, h1⟩
      · exact ⟨Or.inr rfl, h2⟩
    · rintro ⟨h | h, _⟩
      · exact Or.inl h
      · exact Or.inr h
  · simp only [h1, h2, if_true, if_false, List.nil_append, List.mem_singleton]
    constructor
    · rintro rfl
      exact ⟨Or.inl rfl, h1⟩
    · rintro ⟨h | h, hl⟩
      · exact h
      · rw [h] at hl
        exact absurd hl h2
  · simp only [h1, h2, if_true, if_false, List.nil_append, List.mem_singleton]
    constructor
    · rintro rfl
      exact ⟨Or.inr rfl, h2⟩
    · rintro ⟨h | h, hl⟩
      · rw [h] at hl
        exact absurd hl h1
      · exact h
  · simp only [h1, h2, if_false, List.not_mem_nil, false_iff, not_and]
    rintro (h | h) hl
    · rw [h] at hl
      exact h1 hl
    · rw [h] at hl
      exact h2 hl

theorem collect_of_two (src : Sources) (key : Str)
    (hkey : key = "https".toList ∨ key = "http".toList)
    (hlen : 2 ≤ (collect src key).length) :
    collectValues src key = keyCandidates src key := by
  by_cases h : keyCandidates src key = []
  · have h1 := collectValues_length_le_one src key hkey h
    have h2 := (collect_spec src key).1.length_le
    omega
  · exact collectValues_of_two src key hkey h

/-! ## Claims on the conflict detector -/

/-- C8: every conflict `CollectConflicts` returns is for the key `https` or `http`
and its values are the first-occurrence de-duplication of the candidates of that
key in source order (product variable, configuration store, standard variable):
at least two entries, no value twice, every value non-empty and trimmed, the order
of the candidates kept, and every candidate value present, tagged with the first
source that supplies it. -/
theorem C8_conflict_values_deduplicated (src : Sources) (eff : Effective) (c : Conflict)
    (hc : c ∈ CollectConflicts src eff) :
    (c.Key = "https".toList ∨ c.Key = "http".toList) ∧
    2 ≤ c.Values.length ∧
    (c.Values.map (fun vv => vv.Value)).Nodup ∧
    (∀ vv ∈ c.Values, vv.Value ≠ [] ∧ strings.TrimSpace vv.Value = vv.Value) ∧
    c.Values.Sublist (keyCandidates src c.Key) ∧
    (∀ vv ∈ keyCandidates src c.Key,
      ∃ e, (keyCandidates src c.Key).find? (fun x => decide (x.Value = vv.Value)) = some e ∧
        e ∈ c.Values) := by
  obtain ⟨hcase, hlen⟩ := (mem_CollectConflicts src eff c).mp hc
  have main : ∀ key : Str, key = "https".toList ∨ key = "http".toList →
      2 ≤ (collect src key).length →
      ((collect src key).map (fun vv => vv.Value)).Nodup ∧
      (∀ vv ∈ collect src key, vv.Value ≠ [] ∧ strings.TrimSpace vv.Value = vv.Value) ∧
      (collect src key).Sublist (keyCandidates src key) ∧
      (∀ vv ∈ keyCandidates src key,
        ∃ e, (keyCandidates src key).find? (fun x => decide (x.Value = vv.Value)) = some e ∧
          e ∈ collect src key) := by
    intro key hkey hl
    obtain ⟨a, b, d⟩ := collect_spec src key
    rw [collect_of_two src key hkey hl] at a d
    refine ⟨b, ?_, a, d⟩
    intro vv hvv
    have hin : vv ∈ keyCandidates src key := a.subset hvv
    unfold keyCandidates at hin
    split at hin
    · exact mem_sourceCandidates src _ _ _ vv hin
    · exact mem_sourceCandidates src _ _ _ vv hin
  rcases hcase with rfl | rfl
  · exact ⟨Or.inl rfl, hlen, main _ (Or.inl rfl) hlen⟩
  · exact ⟨Or.inr rfl, hlen, main _ (Or.inr rfl) hlen⟩

/-- C8 at `sampleSources`: the conflict for `https` lists `http://a` and `http://b`
once each, though two sources supply `http://b`. -/
theorem C8_conflict_values_deduplicated_witness :
    sampleConflict ∈ CollectConflicts sampleSources (sampleEffective [] false) ∧
    (sampleConflict.Values.map (fun vv => vv.Value)).Nodup ∧
    sampleConflict.Values.Sublist (keyCandidates sampleSources sampleConflict.Key) :=
  ⟨by decide,
   (C8_conflict_values_deduplicated sampleSources (sampleEffective [] false) sampleConflict
      (by decide)).2.2.1,
   (C8_conflict_values_deduplicated sampleSources (sampleEffective [] false) sampleConflict
      (by decide)).2.2.2.2.1⟩

/-- C9, as the claim states it, fails: when the configuration store supplies the
same value as `HTTPS_PROXY`, the conflict for `https` holds that value tagged
`config`, and no entry tagged `std_env`. -/
theorem C9_std_env_tag_lost_to_config :
    strings.TrimSpace (sampleSources.Getenv "DD_PROXY_HTTPS".toList) = "http://a".toList ∧
    strings.TrimSpace (sampleSources.Getenv "HTTPS_PROXY".toList) = "http://b".toList ∧
    ¬ ∃ c ∈ CollectConflicts sampleSources (sampleEffective [] false),
        c.Key = "https".toList ∧
        ({ Value := "http://a".toList, Source := SourceDDEnv } : ValueWithSource) ∈ c.Values ∧
        ({ Value := "http://b".toList, Source := SourceStdEnv } : ValueWithSource) ∈ c.Values := by
  decide

theorem collect_https_of_dd_and_std (src : Sources) (a b : Str)
    (ha : strings.TrimSpace (src.Getenv "DD_PROXY_HTTPS".toList) = a)
    (hb : strings.TrimSpace (src.Getenv "HTTPS_PROXY".toList) = b)
    (ha0 : a ≠ []) (hb0 : b ≠ []) (hab : a ≠ b) :
    ∃ rest, collect src "https".toList = { Value := a, Source := SourceDDEnv } :: rest ∧
      ((∀ cfg, src.Datadog = some cfg → strings.TrimSpace (cfg "proxy.https".toList) ≠ b) →
        ({ Value := b, Source := SourceStdEnv } : ValueWithSource) ∈ rest) ∧
      (∀ cfg, src.Datadog = some cfg → strings.TrimSpace (cfg "proxy.https".toList) = b →
        ({ Value := b, Source := SourceConfig } : ValueWithSource) ∈ rest) := by
  have hba : ¬ b = a := fun e => hab e.symm
  have hne : httpsCandidates src ≠ [] := by
    unfold httpsCandidates sourceCandidates
    rw [ha]
    simp [List.filter, ha0]
  unfold collect
  rw [collectValues_https, if_neg hne]
  unfold httpsCandidates sourceCandidates
  rw [ha, hb]
  cases hD : src.Datadog with
  | none =>
    refine ⟨[{ Value := b, Source := SourceStdEnv }], ?_, fun _ => List.mem_singleton.mpr rfl,
      fun cfg h => by simp at h⟩
    simp [List.filter, ha0, hb0, dedupByValue, hba]
  | some cfg =>
    dsimp only
    generalize hv : strings.TrimSpace (cfg "proxy.https".toList) = v
    by_cases hv0 : v = []
    · refine ⟨[{ Value := b, Source := SourceStdEnv }], ?_,
        fun _ => List.mem_singleton.mpr rfl, fun cfg2 h h2 => ?_⟩
      · simp [List.filter, ha0, hb0, hv0, dedupByValue, hba]
      · have hc : cfg2 = cfg := (Option.some.inj h).symm
        rw [hc, hv, hv0] at h2
        exact absurd h2.symm hb0
    · by_cases hva : v = a
      · refine ⟨[{ Value := b, Source := SourceStdEnv }], ?_,
          fun _ => List.mem_singleton.mpr rfl, fun cfg2 h h2 => ?_⟩
        · simp [List.filter, ha0, hb0, hva, dedupByValue, hba]
        · have hc : cfg2 = cfg := (Option.some.inj h).symm
          rw [hc, hv, hva] at h2
          exact absurd h2 hab
      · by_cases hvb : v = b
        · refine ⟨[{ Value := b, Source := SourceConfig }], ?_, fun h => ?_,
            fun _ _ _ => List.mem_singleton.mpr rfl⟩
          · simp [List.filter, ha0, hb0, hvb, dedupByValue, hba]
          · exact absurd (hv.trans hvb) (h cfg rfl)
        · refine ⟨[{ Value := v, Source := SourceConfig }, { Value := b, Source := SourceStdEnv }],
            ?_, fun _ => by simp, fun cfg2 h h2 => ?_⟩
          · have hbv : ¬ b = v := fun e => hvb e.symm
            simp [List.filter, ha0, hb0, hv0, dedupByValue, hba, hva, hbv]
          · have hc : cfg2 = cfg := (Option.some.inj h).symm
            rw [hc, hv] at h2
            exact absurd h2 hvb

theorem same_value_same_entry (l : List ValueWithSource)
    (hnd : (l.map (fun vv => vv.Value)).Nodup) (x : ValueWithSource) (hx : x ∈ l)
    (e : ValueWithSource) (he : e ∈ l) (hv : e.Value = x.Value) : e = x :=
  List.inj_on_of_nodup_map hnd he hx hv

theorem countP_value_eq_one (l : List ValueWithSource)
    (hnd : (l.map (fun vv => vv.Value)).Nodup) (x : ValueWithSource) (hx : x ∈ l) :
    l.countP (fun vv => decide (vv.Value = x.Value)) = 1 := by
  induction l with
  | nil => exact absurd hx (List.not_mem_nil _)
  | cons y ys ih =>
    rw [List.map_cons, List.nodup_cons] at hnd
    by_cases hy : y.Value = x.Value
    · have hzero : ys.countP (fun vv => decide (vv.Value = x.Value)) = 0 := by
        rw [List.countP_eq_zero]
        intro e he hev
        have hev2 : e.Value = x.Value := by simpa using hev
        exact hnd.1 (List.mem_map.mpr ⟨e, he, hev2.trans hy.symm⟩)
      rw [List.countP_cons_of_pos _ _ (by simpa using hy), hzero]
    · have hin : x ∈ ys := by
        rcases List.mem_cons.mp hx with e | e
        · exact absurd (e ▸ rfl) hy
        · exact e
      rw [List.countP_cons_of_neg _ _ (by simpa using hy)]
      exact ih hnd.2 hin

/-- C9, amended: when `DD_PROXY_HTTPS` trims to a non-empty `a` and `HTTPS_PROXY`
to a non-empty `b` different from `a`, then for every configuration store and every
`Effective` passed in `CollectConflicts` returns a conflict for the key `https`
whose first entry is `a` tagged `dd_env` and which lists `b` after it exactly once
(no value occurs twice in the list): tagged `std_env` unless the configuration store
supplies the same value `b`; when it does, the one entry with value `b` is tagged
`config` and there is no entry `b` tagged `std_env`. -/
theorem C9_conflict_independent_of_winner (src : Sources) (eff : Effective) (a b : Str)
    (ha : strings.TrimSpace (src.Getenv "DD_PROXY_HTTPS".toList) = a)
    (hb : strings.TrimSpace (src.Getenv "HTTPS_PROXY".toList) = b)
    (ha0 : a ≠ []) (hb0 : b ≠ []) (hab : a ≠ b) :
    ∃ c ∈ CollectConflicts src eff, c.Key = "https".toList ∧
      (c.Values.map (fun vv => vv.Value)).Nodup ∧
      c.Values.countP (fun vv => decide (vv.Value = b)) = 1 ∧
      ∃ rest, c.Values = { Value := a, Source := SourceDDEnv } :: rest ∧
        ((∀ cfg, src.Datadog = some cfg → strings.TrimSpace (cfg "proxy.https".toList) ≠ b) →
          ({ Value := b, Source := SourceStdEnv } : ValueWithSource) ∈ rest ∧
          ∀ e ∈ c.Values, e.Value = b → e = { Value := b, Source := SourceStdEnv }) ∧
        (∀ cfg, src.Datadog = some cfg → strings.TrimSpace (cfg "proxy.https".toList) = b →
          ({ Value := b, Source := SourceConfig } : ValueWithSource) ∈ rest ∧
          ({ Value := b, Source := SourceStdEnv } : ValueWithSource) ∉ c.Values ∧
          ∀ e ∈ c.Values, e.Value = b → e = { Value := b, Source := SourceConfig }) := by
  obtain ⟨rest, hrest, h1, h2⟩ := collect_https_of_dd_and_std src a b ha hb ha0 hb0 hab
  have hnd : ((collect src "https".toList).map (fun vv => vv.Value)).Nodup :=
    (collect_spec src "https".toList).2.1
  have hsub : ∀ x, x ∈ rest → x ∈ collect src "https".toList := by
    intro x hx
    rw [hrest]
    exact List.mem_cons_of_mem _ hx
  have hbin : ∃ x ∈ rest, x.Value = b := by
    by_cases hc : ∀ cfg, src.Datadog = some cfg →
        strings.TrimSpace (cfg "proxy.https".toList) ≠ b
    · exact ⟨_, h1 hc, rfl⟩
    · push_neg at hc
      obtain ⟨cfg, hD, hv⟩ := hc
      exact ⟨_, h2 cfg hD hv, rfl⟩
  obtain ⟨x, hxr, hxv⟩ := hbin
  have hone : (collect src "https".toList).countP (fun vv => decide (vv.Value = b)) = 1 := by
    have h := countP_value_eq_one _ hnd x (hsub x hxr)
    rw [hxv] at h
    exact h
  refine ⟨{ Key := "https".toList, Values := collect src "https".toList }, ?_, rfl, hnd,
    hone, rest, hrest, fun hc => ⟨h1 hc, fun e he hv => ?_⟩,
    fun cfg hD hv => ⟨h2 cfg hD hv, fun hstd => ?_, fun e he hve => ?_⟩⟩
  · rw [mem_CollectConflicts]
    refine ⟨Or.inl rfl, ?_⟩
    show 2 ≤ (collect src "https".toList).length
    rw [hrest, List.length_cons]
    have := List.length_pos_of_mem hxr
    omega
  · exact same_value_same_entry _ hnd _ (hsub _ (h1 hc)) e he hv
  · have h3 : SourceStdEnv = SourceConfig :=
      congrArg ValueWithSource.Source
        (same_value_same_entry _ hnd _ (hsub _ (h2 cfg hD hv)) _ hstd rfl)
    exact absurd h3 (by decide)
  · exact same_value_same_entry _ hnd _ (hsub _ (h2 cfg hD hv)) e he hve

/-- C9 amended, at `sampleSources`, where the store supplies `http://b` as
`HTTPS_PROXY` does: the conflict for `https` starts with `http://a` tagged `dd_env`,
lists `http://b` once, tagged `config`, and has no entry tagged `std_env`. -/
theorem C9_conflict_independent_of_winner_witness :
    ∃ c ∈ CollectConflicts sampleSources (sampleEffective [] false), c.Key = "https".toList ∧
      (c.Values.map (fun vv => vv.Value)).Nodup ∧
      c.Values.countP (fun vv => decide (vv.Value = "http://b".toList)) = 1 ∧
      ∃ rest, c.Values = { Value := "http://a".toList, Source := SourceDDEnv } :: rest ∧
        ((∀ cfg, sampleSources.Datadog = some cfg →
            strings.TrimSpace (cfg "proxy.https".toList) ≠ "http://b".toList) →
          ({ Value := "http://b".toList, Source := SourceStdEnv } : ValueWithSource) ∈ rest ∧
          ∀ e ∈ c.Values, e.Value = "http://b".toList →
            e = { Value := "http://b".toList, Source := SourceStdEnv }) ∧
        (∀ cfg, sampleSources.Datadog = some cfg →
            strings.TrimSpace (cfg "proxy.https".toList) = "http://b".toList →
          ({ Value := "http://b".toList, Source := SourceConfig } : ValueWithSource) ∈ rest ∧
          ({ Value := "http://b".toList, Source := SourceStdEnv } : ValueWithSource) ∉ c.Values ∧
          ∀ e ∈ c.Values, e.Value = "http://b".toList →
            e = { Value := "http://b".toList, Source := SourceConfig }) :=
  C9_conflict_independent_of_winner sampleSources (sampleEffective [] false)
    "http://a".toList "http://b".toList (by decide) (by decide) (by decide) (by decide)
    (by decide)

/-- C10, as the claim states it, fails: with `DD_PROXY_HTTPS` set to `http://a`,
`HTTPS_PROXY` unset and the lowercase `https_proxy` set to `http://b`, the standard
variable contributes `http://b` through its lowercase form, yet the value list for
`https` does not hold it and no conflict is returned. -/
theorem C10_lowercase_value_not_collected :
    strings.TrimSpace (lowercaseSources.Getenv "DD_PROXY_HTTPS".toList) = "http://a".toList ∧
    stdEnvWithFallback lowercaseSources "HTTPS_PROXY".toList "https_proxy".toList
      = "http://b".toList ∧
    "http://b".toList ∉ (collectValues lowercaseSources "https".toList).map (fun vv => vv.Value) ∧
    "http://b".toList ∉ (collect lowercaseSources "https".toList).map (fun vv => vv.Value) ∧
    CollectConflicts lowercaseSources (sampleEffective [] false) = [] := by
  decide

theorem two_le_length_of_mem_ne {α : Type} (l : List α) (x y : α) (hx : x ∈ l) (hy : y ∈ l)
    (hxy : x ≠ y) : 2 ≤ l.length := by
  match l, hx, hy with
  | [], hx, _ => exact absurd hx (List.not_mem_nil _)
  | [z], hx, hy =>
    rw [List.mem_singleton] at hx hy
    exact absurd (hx.trans hy.symm) hxy
  | _ :: _ :: _, _, _ => simp

theorem candidate_value_collected (src : Sources) (key : Str)
    (hkey : key = "https".toList ∨ key = "http".toList) (vv : ValueWithSource)
    (hvv : vv ∈ keyCandidates src key) :
    vv.Value ∈ (collect src key).map (fun x => x.Value) := by
  have hne : keyCandidates src key ≠ [] := List.ne_nil_of_mem hvv
  obtain ⟨_, _, d⟩ := collect_spec src key
  rw [collectValues_of_two src key hkey hne] at d
  obtain ⟨e, he, hmem⟩ := d vv hvv
  have hev : e.Value = vv.Value := by
    have := List.find?_some he
    simpa using this
  exact List.mem_map.mpr ⟨e, hmem, hev⟩

/-- C10, amended: for each key, every non-empty trimmed value contributed by the
product variable, the configuration store or the uppercase standard variable
appears in the value list `CollectConflicts` builds for the key, and whenever two of
these contribute different values a conflict for the key is returned that holds
both.  The lowercase standard variable is read only when none of these three
contributes a value; as soon as one does, the value list is exactly their values. -/
theorem C10_contributing_sources_collected (src : Sources) (eff : Effective) (key : Str)
    (hkey : key = "https".toList ∨ key = "http".toList) :
    (∀ vv ∈ keyCandidates src key, vv.Value ∈ (collect src key).map (fun x => x.Value)) ∧
    (∀ vv ∈ keyCandidates src key, ∀ ww ∈ keyCandidates src key, vv.Value ≠ ww.Value →
      ∃ c ∈ CollectConflicts src eff, c.Key = key ∧
        vv.Value ∈ c.Values.map (fun x => x.Value) ∧
        ww.Value ∈ c.Values.map (fun x => x.Value)) ∧
    (keyCandidates src key ≠ [] → collectValues src key = keyCandidates src key) ∧
    (keyCandidates src key = [] →
      collectValues src key =
        if key = "https".toList then
          (if strings.TrimSpace (src.Getenv "https_proxy".toList) ≠ [] then
            [{ Value := strings.TrimSpace (src.Getenv "https_proxy".toList),
               Source := SourceStdEnv }]
          else [])
        else
          (if strings.TrimSpace (src.Getenv "http_proxy".toList) ≠ [] then
            [{ Value := strings.TrimSpace (src.Getenv "http_proxy".toList),
               Source := SourceStdEnv }]
          else [])) := by
  refine ⟨candidate_value_collected src key hkey, ?_, collectValues_of_two src key hkey, ?_⟩
  · intro vv hvv ww hww hne
    have h1 := candidate_value_collected src key hkey vv hvv
    have h2 := candidate_value_collected src key hkey ww hww
    have hlen : 2 ≤ (collect src key).length := by
      have := two_le_length_of_mem_ne _ _ _ h1 h2 hne
      simpa using this
    refine ⟨{ Key := key, Values := collect src key }, ?_, rfl, h1, h2⟩
    rw [mem_CollectConflicts]
    refine ⟨?_, hlen⟩
    rcases hkey with rfl | rfl
    · exact Or.inl rfl
    · exact Or.inr rfl
  · intro hnil
    rcases hkey with rfl | rfl
    · have hk : keyCandidates src "https".toList = httpsCandidates src := rfl
      rw [hk] at hnil
      rw [collectValues_https, if_pos hnil, if_pos rfl]
    · have hk : keyCandidates src "http".toList = httpCandidates src := rfl
      have hd : ¬ ("http".toList = "https".toList) := by decide
      rw [hk] at hnil
      rw [collectValues_http, if_pos hnil, if_neg hd]

/-- C10 amended, at `sampleSources` and the key `https`: the value list is the list
of the candidates, and at `lowercaseSources` too, where the lowercase variable is
therefore not read. -/
theorem C10_contributing_sources_collected_witness :
    collectValues sampleSources "https".toList = keyCandidates sampleSources "https".toList ∧
    collectValues lowercaseSources "https".toList
      = keyCandidates lowercaseSources "https".toList :=
  ⟨(C10_contributing_sources_collected sampleSources (sampleEffective [] false)
      "https".toList (Or.inl rfl)).2.2.1 (by decide),
   (C10_contributing_sources_collected lowercaseSources (sampleEffective [] false)
      "https".toList (Or.inl rfl)).2.2.1 (by decide)⟩

/-! ## More lemmas on the string functions -/

theorem indexFrom_no_colon (s : Str) (hs : ':' ∉ s) (i : Nat) :
    strings.indexFrom [':'] s i = none := by
  induction s generalizing i with
  | nil => simp [strings.indexFrom]
  | cons c cs ih =>
    have hc : ¬ (':' = c) := fun e => hs (List.mem_cons.mpr (Or.inl e))
    have hcs : ':' ∉ cs := fun e => hs (List.mem_cons_of_mem c e)
    have step : strings.indexFrom [':'] (c :: cs) i = strings.indexFrom [':'] cs (i + 1) := by
      simp [strings.indexFrom, List.isPrefixOf, hc]
    rw [step, ih hcs (i + 1)]

theorem Cut_no_colon (s : Str) (hs : ':' ∉ s) : strings.Cut s [':'] = (s, [], false) := by
  simp [strings.Cut, strings.Index, indexFrom_no_colon s hs 0]

theorem indexFrom_isSome_iff (sep s : Str) (i : Nat) :
    (strings.indexFrom sep s i).isSome = true ↔ sep <:+: s := by
  induction s generalizing i with
  | nil =>
    by_cases h : sep = []
    · simp [strings.indexFrom, h]
    · simp [strings.indexFrom, h]
  | cons c cs ih =>
    by_cases hp : sep.isPrefixOf (c :: cs) = true
    · have hpre : sep <+: c :: cs := List.isPrefixOf_iff_prefix.mp hp
      simp only [strings.indexFrom, hp, if_true, Option.isSome_some, true_iff]
      exact hpre.isInfix
    · have hnp : ¬ sep <+: c :: cs := fun h => hp (List.isPrefixOf_iff_prefix.mpr h)
      simp only [strings.indexFrom, hp, if_false, Bool.false_eq_true]
      rw [ih (i + 1), List.infix_cons_iff]
      constructor
      · exact fun h => Or.inr h
      · rintro (h | h)
        · exact absurd h hnp
        · exact h

theorem Contains_iff_occurs (s sub : Str) : strings.Contains s sub = true ↔ sub <:+: s := by
  unfold strings.Contains strings.Index
  exact indexFrom_isSome_iff sub s 0

theorem ToLower_fixed_of_eq (table : Char → Char)
    (hidem : ∀ c, unicode.ToLower table (unicode.ToLower table c) = unicode.ToLower table c)
    (x s : Str) (h : strings.ToLower table x = s) : strings.ToLower table s = s := by
  rw [← h]
  exact ToLower_idem table hidem x

theorem domainMatches_lowered_host (table : Char → Char)
    (hidem : ∀ c, unicode.ToLower table (unicode.ToLower table c) = unicode.ToLower table c)
    (host suffix : Str) :
    domainMatches table (strings.ToLower table host) suffix = domainMatches table host suffix := by
  simp only [domainMatches, ToLower_idem table hidem]

/-! ## Claims on leading-dot and plain tokens -/

/-- C11: for a token whose normalized form is a dot followed by `rest`, with no
colon in it, `tokenMatches` equals `domainMatches host rest` whatever the port and
the non-exact flag are, and it holds exactly when the lower-cased host equals `rest`
or ends with a dot followed by `rest`.  Lower-casing is taken to be idempotent, as
Unicode case folding is. -/
theorem C11_leading_dot_token (table : Char → Char)
    (hidem : ∀ c, unicode.ToLower table (unicode.ToLower table c) = unicode.ToLower table c)
    (host port tok rest : Str) (nonExact : Bool)
    (hnorm : normalizeToken table tok = '.' :: rest) (hcolon : ':' ∉ rest) :
    tokenMatches table host port tok nonExact = domainMatches table host rest ∧
    (tokenMatches table host port tok nonExact = true ↔
      (strings.ToLower table host = rest ∨ ('.' :: rest) <:+ strings.ToLower table host)) := by
  have hc : ':' ∉ '.' :: rest := by
    intro h
    rcases List.mem_cons.mp h with h | h
    · exact absurd h (by decide)
    · exact hcolon h
  have hstar : ¬ ('.' :: rest = ['*']) := by
    intro h
    exact absurd (List.cons.inj h).1 (by decide)
  have hpre : strings.HasPrefix ('.' :: rest) ['.'] = true := by
    simp [strings.HasPrefix, List.isPrefixOf]
  have htrim : strings.TrimPrefix ('.' :: rest) ['.'] = rest := by
    simp [strings.TrimPrefix, hpre]
  have hrest : strings.ToLower table rest = rest := by
    have h1 : strings.ToLower table ('.' :: rest) = '.' :: rest :=
      ToLower_fixed_of_eq table hidem _ _ hnorm
    simp only [strings.ToLower, List.map_cons] at h1
    exact (List.cons.inj h1).2
  have heq : tokenMatches table host port tok nonExact = domainMatches table host rest := by
    simp only [tokenMatches, hnorm, Cut_no_colon _ hc, hstar, hpre, htrim,
      domainMatches_lowered_host table hidem]
    simp
  refine ⟨heq, ?_⟩
  rw [heq, domainMatches_eq_true, hrest]

/-- C11 at the token `.datadoghq.com`, in the non-exact mode: the hosts
`app.datadoghq.com` and `datadoghq.com` match and `notdatadoghq.com` does not. -/
theorem C11_leading_dot_token_witness :
    tokenMatches plainTable "app.datadoghq.com".toList "443".toList ".datadoghq.com".toList true
      = true ∧
    tokenMatches plainTable "datadoghq.com".toList "80".toList ".datadoghq.com".toList true
      = true ∧
    tokenMatches plainTable "notdatadoghq.com".toList "443".toList ".datadoghq.com".toList true
      = false :=
  ⟨(C11_leading_dot_token plainTable plainTable_idem "app.datadoghq.com".toList "443".toList
      ".datadoghq.com".toList "datadoghq.com".toList true (by decide) (by decide)).1.trans
      (by decide),
   (C11_leading_dot_token plainTable plainTable_idem "datadoghq.com".toList "80".toList
      ".datadoghq.com".toList "datadoghq.com".toList true (by decide) (by decide)).1.trans
      (by decide),
   (C11_leading_dot_token plainTable plainTable_idem "notdatadoghq.com".toList "443".toList
      ".datadoghq.com".toList "datadoghq.com".toList true (by decide) (by decide)).1.trans
      (by decide)⟩

/-- C12: for a token whose normalized form `n` has no colon, is not `*` and does
not start with a dot, `tokenMatches` with the non-exact mode off holds exactly when
the lower-cased host equals `n`, and with the mode on exactly when the lower-cased
host contains `n` as a substring; the port plays no part, and a match with the mode
off is a match with the mode on. -/
theorem C12_plain_token (table : Char → Char) (host port tok n : Str)
    (hnorm : normalizeToken table tok = n) (hcolon : ':' ∉ n) (hstar : n ≠ ['*'])
    (hdot : ∀ rest, n ≠ '.' :: rest) :
    (tokenMatches table host port tok false = true ↔ strings.ToLower table host = n) ∧
    (tokenMatches table host port tok true = true ↔ n <:+: strings.ToLower table host) ∧
    (tokenMatches table host port tok false = true → tokenMatches table host port tok true = true) ∧
    (∀ (other : Str) (nonExact : Bool),
      tokenMatches table host other tok nonExact = tokenMatches table host port tok nonExact) := by
  have hpre : ¬ strings.HasPrefix n ['.'] = true := by
    intro h
    unfold strings.HasPrefix at h
    obtain ⟨t, ht⟩ := List.isPrefixOf_iff_prefix.mp h
    exact hdot t (by simpa using ht.symm)
  have hform : ∀ (q : Str) (nonExact : Bool), tokenMatches table host q tok nonExact =
      (if strings.ToLower table host = n then true
       else if nonExact = true ∧ strings.Contains (strings.ToLower table host) n = true then true
       else false) := by
    intro q nonExact
    simp only [tokenMatches, hnorm, Cut_no_colon _ hcolon, hstar, hpre]
    simp
  have hfalse : tokenMatches table host port tok false = true ↔ strings.ToLower table host = n := by
    rw [hform]
    by_cases h : strings.ToLower table host = n
    · simp [h]
    · simp [h]
  have htrue : tokenMatches table host port tok true = true ↔ n <:+: strings.ToLower table host := by
    rw [hform, ← Contains_iff_occurs]
    by_cases h : strings.ToLower table host = n
    · have hc : strings.Contains n n = true :=
        (Contains_iff_occurs n n).mpr (List.infix_refl n)
      simp [h, hc]
    · simp [h]
  refine ⟨hfalse, htrue, fun h => ?_, fun other nonExact => ?_⟩
  · exact htrue.mpr (hfalse.mp h ▸ List.infix_refl _)
  · rw [hform, hform]

/-- C12 at the token `Example.com` and the host `api.example.com`: no match with
the non-exact mode off, a match with it on. -/
theorem C12_plain_token_witness :
    ¬ tokenMatches plainTable "api.example.com".toList "443".toList "Example.com".toList false
        = true ∧
    tokenMatches plainTable "api.example.com".toList "443".toList "Example.com".toList true
        = true :=
  ⟨fun h => absurd ((C12_plain_token plainTable "api.example.com".toList "443".toList
      "Example.com".toList "example.com".toList (by decide) (by decide) (by decide)
      (fun rest e => absurd (List.cons.inj e).1 (by decide))).1.mp h) (by decide),
   (C12_plain_token plainTable "api.example.com".toList "443".toList
      "Example.com".toList "example.com".toList (by decide) (by decide) (by decide)
      (fun rest e => absurd (List.cons.inj e).1 (by decide))).2.1.mpr
      ⟨"api.".toList, [], by decide⟩⟩

/-! ## Claims on when `Run` probes -/

theorem runFindings_eq (w : World) (opts : Options) :
    runFindings w opts =
      if opts.NoNetwork = false then
        configFindings w opts ++
          (ProbeProxyConnectivity w.upper w.parse w.net w.ComputeEffective opts.Timeout
            opts.Retries).1
      else configFindings w opts := by
  unfold runFindings configFindings ProbeEndpointsConnectivity
  by_cases h : opts.NoNetwork = false
  · simp [h]
  · simp [h]

/-- C13, as the claim states it, fails: `Run` with the zero value of `Options`
runs the prober; with an unreachable HTTP proxy configured it makes one dial and
returns the finding `proxy.http.connect_failed`. -/
theorem C13_zero_options_probe :
    (Run unreachableWorld zeroOptions).Findings.map (fun f => f.Code)
      = ["proxy.http.connect_failed".toList] ∧
    (ProbeProxyConnectivity unreachableWorld.upper unreachableWorld.parse unreachableWorld.net
      unreachableWorld.ComputeEffective zeroOptions.Timeout zeroOptions.Retries).2 = 1 := by
  decide

/-- C13, amended: probing is off by default at the command line, whose
`--no-network` flag defaults to true, and in the flare; `Run` itself probes exactly
when `Options.NoNetwork` is false.  With `NoNetwork` true the findings are the
config findings alone and the result does not depend on the network; with
`NoNetwork` false, as in the zero value of `Options`, the findings of
`ProbeProxyConnectivity` are appended. -/
theorem C13_probing_follows_NoNetwork (w : World) (opts : Options) :
    defaultCommandOptions.NoNetwork = true ∧ flareOptions.NoNetwork = true ∧
    zeroOptions.NoNetwork = false ∧
    (opts.NoNetwork = true →
      (Run w opts).Findings = configFindings w opts ∧
      ∀ net : Network, Run { w with net := net } opts = Run w opts) ∧
    (opts.NoNetwork = false →
      (Run w opts).Findings = configFindings w opts ++
        (ProbeProxyConnectivity w.upper w.parse w.net w.ComputeEffective opts.Timeout
          opts.Retries).1) := by
  refine ⟨rfl, rfl, rfl, fun h => ⟨?_, fun net => ?_⟩, fun h => ?_⟩
  · show runFindings w opts = _
    rw [runFindings_eq]
    simp [h]
  · have h1 : runFindings { w with net := net } opts = runFindings w opts := by
      rw [runFindings_eq, runFindings_eq]
      simp [h, configFindings]
    simp only [Run, h1]
  · show runFindings w opts = _
    rw [runFindings_eq]
    simp [h]

/-- C13 amended, at the unreachable proxy: with the options of the command line
default and of the flare `Run` returns no finding, and with `NoNetwork` false it
returns the findings of the prober. -/
theorem C13_probing_follows_NoNetwork_witness :
    (Run unreachableWorld defaultCommandOptions).Findings = [] ∧
    (Run unreachableWorld flareOptions).Findings = [] ∧
    (Run unreachableWorld zeroOptions).Findings =
      configFindings unreachableWorld zeroOptions ++
        (ProbeProxyConnectivity unreachableWorld.upper unreachableWorld.parse
          unreachableWorld.net unreachableWorld.ComputeEffective zeroOptions.Timeout
          zeroOptions.Retries).1 :=
  ⟨((C13_probing_follows_NoNetwork unreachableWorld defaultCommandOptions).2.2.2.1 rfl).1.trans
      (by decide),
   ((C13_probing_follows_NoNetwork unreachableWorld flareOptions).2.2.2.1 rfl).1.trans
      (by decide),
   (C13_probing_follows_NoNetwork unreachableWorld zeroOptions).2.2.2.2 rfl⟩

/-! ## Case-insensitive matching -/

theorem dropWhile_map_comm (p : Char → Bool) (f : Char → Char) (hp : ∀ c, p (f c) = p c)
    (l : Str) : (l.map f).dropWhile p = (l.dropWhile p).map f := by
  rw [List.dropWhile_map]
  have : p ∘ f = p := funext hp
  rw [this]

theorem rdropWhile_map_comm (p : Char → Bool) (f : Char → Char) (hp : ∀ c, p (f c) = p c)
    (l : Str) : (l.map f).rdropWhile p = (l.rdropWhile p).map f := by
  unfold List.rdropWhile
  rw [← List.map_reverse, dropWhile_map_comm p f hp, List.map_reverse]

theorem TrimSpace_ToLower (table : Char → Char)
    (hspace : ∀ c, unicode.IsSpace (unicode.ToLower table c) = unicode.IsSpace c) (s : Str) :
    strings.TrimSpace (strings.ToLower table s) = strings.ToLower table (strings.TrimSpace s) := by
  unfold strings.TrimSpace strings.ToLower
  rw [dropWhile_map_comm _ _ hspace, rdropWhile_map_comm _ _ hspace]

theorem Trim_brackets_ToLower (table : Char → Char)
    (hbr : ∀ c, unicode.ToLower table c ∈ ['[', ']'] ↔ c ∈ ['[', ']']) (s : Str) :
    strings.Trim (strings.ToLower table s) ['[', ']']
      = strings.ToLower table (strings.Trim s ['[', ']']) := by
  have hp : ∀ c, (fun c => decide (c ∈ ['[', ']'])) (unicode.ToLower table c)
      = (fun c => decide (c ∈ ['[', ']'])) c := by
    intro c
    exact decide_eq_decide.mpr (hbr c)
  unfold strings.Trim strings.ToLower
  rw [rdropWhile_map_comm _ _ hp, dropWhile_map_comm _ _ hp]

theorem normalizeToken_of_lowered (table : Char → Char)
    (hspace : ∀ c, unicode.IsSpace (unicode.ToLower table c) = unicode.IsSpace c)
    (hbr : ∀ c, unicode.ToLower table c ∈ ['[', ']'] ↔ c ∈ ['[', ']']) (tok : Str) :
    normalizeToken table tok
      = strings.Trim (strings.TrimSpace (strings.ToLower table tok)) ['[', ']'] := by
  unfold normalizeToken
  rw [TrimSpace_ToLower table hspace, Trim_brackets_ToLower table hbr]

theorem tokenMatches_congr (table : Char → Char) (h1 h2 t1 t2 port : Str) (nonExact : Bool)
    (hh : strings.ToLower table h1 = strings.ToLower table h2)
    (ht : normalizeToken table t1 = normalizeToken table t2) :
    tokenMatches table h1 port t1 nonExact = tokenMatches table h2 port t2 nonExact := by
  simp only [tokenMatches, hh, ht]

theorem plainTable_space (c : Char) :
    unicode.IsSpace (unicode.ToLower plainTable c) = unicode.IsSpace c := by
  unfold unicode.ToLower
  by_cases h1 : c.toNat ≤ 0x7F
  · by_cases h2 : 0x41 ≤ c.toNat ∧ c.toNat ≤ 0x5A
    · have h3 : (Char.ofNat (c.toNat + 0x20)).toNat = c.toNat + 0x20 :=
        toNat_ofNat_small _ (by omega)
      simp only [h1, h2, if_true, and_self, unicode.IsSpace, h3]
      have e1 : unicode.IsSpace c = false := by
        unfold unicode.IsSpace
        simp only [Bool.or_eq_false_iff, beq_eq_false_iff_ne, ne_eq, Bool.and_eq_false_imp,
          decide_eq_true_eq, decide_eq_false_iff_not]
        omega
      unfold unicode.IsSpace at e1
      rw [e1]
      simp only [Bool.or_eq_false_iff, beq_eq_false_iff_ne, ne_eq, Bool.and_eq_false_imp,
        decide_eq_true_eq, decide_eq_false_iff_not]
      omega
    · simp only [h1, h2, if_true, if_false]
  · simp only [h1, if_false, plainTable]

theorem plainTable_brackets (c : Char) :
    unicode.ToLower plainTable c ∈ ['[', ']'] ↔ c ∈ ['[', ']'] := by
  unfold unicode.ToLower
  by_cases h1 : c.toNat ≤ 0x7F
  · by_cases h2 : 0x41 ≤ c.toNat ∧ c.toNat ≤ 0x5A
    · have h3 : (Char.ofNat (c.toNat + 0x20)).toNat = c.toNat + 0x20 :=
        toNat_ofNat_small _ (by omega)
      have hl : ∀ d : Char, d ∈ ['[', ']'] → d.toNat = 91 ∨ d.toNat = 93 := by
        intro d hd
        simp only [List.mem_cons, List.mem_singleton, List.not_mem_nil, or_false] at hd
        rcases hd with rfl | rfl
        · exact Or.inl rfl
        · exact Or.inr rfl
      simp only [h1, h2, if_true, and_self]
      constructor
      · intro h
        have := hl _ h
        omega
      · intro h
        have := hl _ h
        omega
    · simp only [h1, h2, if_true, if_false]
  · simp only [h1, if_false, plainTable]

/-- C14: hosts that lower-case to the same string and tokens that lower-case to
the same string give the same answer of `tokenMatches`, for every port and either
mode.  Lower-casing is taken to keep white space white space and brackets
brackets, and to turn nothing else into them, as Unicode case mapping does. -/
theorem C14_case_insensitive (table : Char → Char)
    (hspace : ∀ c, unicode.IsSpace (unicode.ToLower table c) = unicode.IsSpace c)
    (hbr : ∀ c, unicode.ToLower table c ∈ ['[', ']'] ↔ c ∈ ['[', ']'])
    (h1 h2 t1 t2 port : Str) (nonExact : Bool)
    (hh : strings.ToLower table h1 = strings.ToLower table h2)
    (ht : strings.ToLower table t1 = strings.ToLower table t2) :
    tokenMatches table h1 port t1 nonExact = tokenMatches table h2 port t2 nonExact := by
  apply tokenMatches_congr table h1 h2 t1 t2 port nonExact hh
  rw [normalizeToken_of_lowered table hspace hbr, normalizeToken_of_lowered table hspace hbr, ht]

/-- C14 at the hosts `API.Example.COM` and `api.example.com` and the tokens
` [.EXAMPLE.com] ` and ` [.example.COM] `: both pairs match. -/
theorem C14_case_insensitive_witness :
    tokenMatches plainTable "API.Example.COM".toList "443".toList " [.EXAMPLE.com] ".toList false
      = tokenMatches plainTable "api.example.com".toList "443".toList
          " [.example.COM] ".toList false ∧
    tokenMatches plainTable "api.example.com".toList "443".toList " [.example.COM] ".toList false
      = true :=
  ⟨C14_case_insensitive plainTable plainTable_space plainTable_brackets
      "API.Example.COM".toList "api.example.com".toList " [.EXAMPLE.com] ".toList
      " [.example.COM] ".toList "443".toList false (by decide) (by decide),
   by decide⟩

/-! ## Which endpoints get a row -/

theorem matchTokens_Endpoint (table : Char → Char) (host port : Str) (nonExact : Bool)
    (check : EndpointCheck) (tokens : List Str) :
    (matchTokens table host port nonExact tokens check).Endpoint = check.Endpoint := by
  rcases matchTokens_spec table host port nonExact check tokens with ⟨_, _, _, d, _⟩ | ⟨a, _⟩
  · exact d
  · rw [a]

theorem evaluateEndpoints_Endpoints (table : Char → Char) (parse : URLParser)
    (tokens : List Str) (nonExact : Bool) (eps : List Endpoint) :
    (evaluateEndpoints table parse tokens nonExact eps []).map (fun row => row.Endpoint)
      = eps.filter (parsesToHost parse) := by
  induction eps with
  | nil => simp [evaluateEndpoints]
  | cons ep eps ih =>
    simp only [evaluateEndpoints]
    cases hp : parse ep.URL with
    | none =>
      have hf : parsesToHost parse ep = false := by simp [parsesToHost, hp]
      rw [List.filter_cons_of_neg (by simp [hf])]
      exact ih
    | some u =>
      by_cases hh : u.Host = []
      · have hf : parsesToHost parse ep = false := by simp [parsesToHost, hp, hh]
        simp only [hh, if_true]
        rw [List.filter_cons_of_neg (by simp [hf])]
        exact ih
      · have hf : parsesToHost parse ep = true := by simp [parsesToHost, hp, hh]
        simp only [hh, if_false]
        rw [evaluateEndpoints_acc, List.filter_cons_of_pos hf, List.map_append, ih]
        simp [matchTokens_Endpoint]

/-- C15: the rows of `EvaluateNoProxy` are, in order, one row for each endpoint
whose URL parses to a non-empty host, carrying that endpoint unchanged, and no row
for any other endpoint; so the matrix has as many rows as the catalog has endpoints
minus those whose URL does not parse or has an empty host, whatever the exclusion
list and the matching mode are. -/
theorem C15_malformed_endpoints_omitted (table : Char → Char) (parse : URLParser)
    (eff : Effective) (eps : List Endpoint) :
    (EvaluateNoProxy table parse eff eps).map (fun row => row.Endpoint)
      = eps.filter (parsesToHost parse) ∧
    (EvaluateNoProxy table parse eff eps).length
      = eps.length - eps.countP (fun ep => !parsesToHost parse ep) ∧
    (∀ other : Effective,
      (EvaluateNoProxy table parse other eps).map (fun row => row.Endpoint)
        = (EvaluateNoProxy table parse eff eps).map (fun row => row.Endpoint) ∧
      (EvaluateNoProxy table parse other eps).length
        = (EvaluateNoProxy table parse eff eps).length) := by
  have hmap : ∀ e : Effective, (EvaluateNoProxy table parse e eps).map (fun row => row.Endpoint)
      = eps.filter (parsesToHost parse) := fun e => evaluateEndpoints_Endpoints table parse _ _ eps
  have hlen : ∀ e : Effective, (EvaluateNoProxy table parse e eps).length
      = (eps.filter (parsesToHost parse)).length := by
    intro e
    rw [← hmap e, List.length_map]
  refine ⟨hmap eff, ?_, fun other => ⟨(hmap other).trans (hmap eff).symm,
    (hlen other).trans (hlen eff).symm⟩⟩
  rw [hlen eff]
  have h := List.length_eq_length_filter_add (l := eps) (parsesToHost parse)
  rw [List.countP_eq_length_filter]
  omega

/-- C15 at the sample catalog: the endpoint `broken` gets no row, the other two
do, in their order. -/
theorem C15_malformed_endpoints_omitted_witness :
    (EvaluateNoProxy plainTable sampleParse (sampleEffective "a.com,*".toList false)
      sampleEndpoints).map (fun row => row.Endpoint.Name) = ["api".toList, "local".toList] ∧
    (EvaluateNoProxy plainTable sampleParse (sampleEffective "a.com,*".toList false)
      sampleEndpoints).length = 3 - 1 :=
  ⟨by decide,
   (C15_malformed_endpoints_omitted plainTable sampleParse
      (sampleEffective "a.com,*".toList false) sampleEndpoints).2.1.trans (by decide)⟩

/-! ## Bypass findings -/

theorem bypassFindings_eq (matrix : List EndpointCheck) :
    ∀ findings : List Finding,
      bypassFindings matrix findings
        = findings ++ (matrix.filter (fun row => row.Bypassed)).map bypassFinding := by
  induction matrix with
  | nil => intro findings; simp [bypassFindings]
  | cons row rest ih =>
    intro findings
    by_cases h : row.Bypassed = true
    · rw [bypassFindings, if_pos h, ih, List.filter_cons_of_pos h]
      simp [bypassFinding]
    · rw [bypassFindings, if_neg h, ih, List.filter_cons_of_neg h]

/-- C16: the bypass loop of `Run` appends to the findings exactly one finding for
each bypassed row of the matrix, in matrix order, and none for the other rows; each
has the code `no_proxy.endpoint_bypassed`, severity yellow, and as evidence the
row's endpoint name, host and matched token.  With the exclusion list
`.datadoghq.com` and the endpoint `core` at `app.datadoghq.com` this is one finding,
naming `core` and the token `.datadoghq.com`. -/
theorem C16_bypass_findings :
    (∀ (matrix : List EndpointCheck) (findings : List Finding),
      bypassFindings matrix findings
        = findings ++ (matrix.filter (fun row => row.Bypassed)).map bypassFinding) ∧
    (∀ row : EndpointCheck,
      (bypassFinding row).Code = "no_proxy.endpoint_bypassed".toList ∧
      (bypassFinding row).Severity = SeverityYellow ∧
      (bypassFinding row).Evidence = Evidence.strings [("endpoint".toList, row.Endpoint.Name),
        ("host".toList, row.Host), ("token".toList, row.Matched)]) ∧
    (∀ (w : World) (opts : Options),
      configFindings w opts =
        (w.LintAll w.ComputeEffective ++ w.lintURLShapes w.ComputeEffective ++
          lintConflicts w.upper w.src w.ComputeEffective) ++
        ((EvaluateNoProxy w.lower w.parse w.ComputeEffective
          (EffectiveEndpoints w.src w.readYAML opts.ExtraEndpoints).1).filter
            (fun row => row.Bypassed)).map bypassFinding) ∧
    bypassFindings
      (EvaluateNoProxy plainTable datadogParse (sampleEffective ".datadoghq.com".toList false)
        [{ Name := "core".toList, URL := "https://app.datadoghq.com".toList }]) []
      = [bypassFinding
          { Endpoint := { Name := "core".toList, URL := "https://app.datadoghq.com".toList },
            Host := "app.datadoghq.com".toList, Port := "443".toList, Bypassed := true,
            Matched := ".datadoghq.com".toList }] :=
  ⟨bypassFindings_eq, fun _ => ⟨rfl, rfl, rfl⟩, fun _ _ => bypassFindings_eq _ _, by decide⟩

/-- C16 at a matrix of two rows, the first bypassed: one finding is appended,
that of the first row. -/
theorem C16_bypass_findings_witness :
    bypassFindings [sampleRow, { sampleRow with Bypassed := false, Matched := [] }]
      [sampleFinding SeverityRed]
      = [sampleFinding SeverityRed, bypassFinding sampleRow] :=
  (C16_bypass_findings.1 _ _).trans (by decide)

/-! ## The rollup does not depend on the order -/

theorem rollupLoop_perm (fs gs : List Finding) (h : fs.Perm gs) :
    rollupLoop fs SeverityGreen = rollupLoop gs SeverityGreen := by
  have hgr : SeverityGreen ≠ SeverityRed := by decide
  have hred : (∃ f ∈ fs, f.Severity = SeverityRed) ↔ (∃ f ∈ gs, f.Severity = SeverityRed) :=
    ⟨fun ⟨f, hf, e⟩ => ⟨f, h.mem_iff.mp hf, e⟩, fun ⟨f, hf, e⟩ => ⟨f, h.mem_iff.mpr hf, e⟩⟩
  have hyel : (∃ f ∈ fs, f.Severity = SeverityYellow) ↔
      (∃ f ∈ gs, f.Severity = SeverityYellow) :=
    ⟨fun ⟨f, hf, e⟩ => ⟨f, h.mem_iff.mp hf, e⟩, fun ⟨f, hf, e⟩ => ⟨f, h.mem_iff.mpr hf, e⟩⟩
  by_cases h1 : ∃ f ∈ fs, f.Severity = SeverityRed
  · rw [(rollupLoop_red_iff fs SeverityGreen hgr).mpr h1,
      (rollupLoop_red_iff gs SeverityGreen hgr).mpr (hred.mp h1)]
  · have h1g : ¬ ∃ f ∈ gs, f.Severity = SeverityRed := fun e => h1 (hred.mpr e)
    have nf := rollupLoop_green_yellow_iff fs (fun f hf e => h1 ⟨f, hf, e⟩)
    have ng := rollupLoop_green_yellow_iff gs (fun f hf e => h1g ⟨f, hf, e⟩)
    by_cases h2 : ∃ f ∈ fs, f.Severity = SeverityYellow
    · rw [nf.1.mpr h2, ng.1.mpr (hyel.mp h2)]
    · rw [nf.2 h2, ng.2 (fun e => h2 (hyel.mpr e))]

/-- C18: the summary the rollup loop of `Run` computes is the same for a findings
list and for every permutation of it. -/
theorem C18_rollup_order_independent (fs gs : List Finding) (h : fs.Perm gs) :
    rollupLoop fs SeverityGreen = rollupLoop gs SeverityGreen :=
  rollupLoop_perm fs gs h

/-- C18 at a list of a yellow, a red and a green finding and its reverse. -/
theorem C18_rollup_order_independent_witness :
    rollupLoop [sampleFinding SeverityYellow, sampleFinding SeverityRed,
        sampleFinding SeverityGreen] SeverityGreen
      = rollupLoop [sampleFinding SeverityGreen, sampleFinding SeverityRed,
        sampleFinding SeverityYellow] SeverityGreen :=
  C18_rollup_order_independent _ _ (List.reverse_perm _).symm

/-! ## The catalog -/

theorem appendExtras_eq (extras : List Endpoint) :
    ∀ eps : List Endpoint, appendExtras extras eps = eps ++ extras.map normalizeExtra := by
  induction extras with
  | nil => intro eps; simp [appendExtras]
  | cons ex rest ih =>
    intro eps
    rw [appendExtras, ih]
    simp [normalizeExtra]

theorem EffectiveEndpoints_eq (src : Sources) (readYAML : Str → Option (Str × Str))
    (extras : List Endpoint) :
    (EffectiveEndpoints src readYAML extras).1
      = fixedEndpoints (EffectiveEndpoints src readYAML extras).2.Site
          (EffectiveEndpoints src readYAML extras).2.DDURL ++ extras.map normalizeExtra := by
  unfold EffectiveEndpoints
  simp only [appendExtras_eq]
  rfl

theorem Contains_scheme_separator (u : Str) :
    strings.Contains ("https://".toList ++ u) "://".toList = true := by
  rw [Contains_iff_occurs]
  exact ⟨"https".toList, u, rfl⟩

theorem normalizeExtra_spec (ex : Endpoint) :
    (normalizeExtra ex).Name = ex.Name ∧
    (strings.Contains ex.URL "://".toList = true → (normalizeExtra ex).URL = ex.URL) ∧
    (strings.Contains ex.URL "://".toList = false →
      (normalizeExtra ex).URL = "https://".toList ++ ex.URL) ∧
    strings.Contains (normalizeExtra ex).URL "://".toList = true ∧
    normalizeExtra (normalizeExtra ex) = normalizeExtra ex := by
  have hc : strings.Contains (normalizeExtra ex).URL "://".toList = true := by
    unfold normalizeExtra
    by_cases h : strings.Contains ex.URL "://".toList = true
    · simp only [h, if_true]
    · simp only [h, if_false, Bool.false_eq_true]
      exact Contains_scheme_separator ex.URL
  refine ⟨rfl, fun h => ?_, fun h => ?_, hc, ?_⟩
  · show (if strings.Contains ex.URL "://".toList = true then ex.URL
        else "https://".toList ++ ex.URL) = ex.URL
    rw [if_pos h]
  · show (if strings.Contains ex.URL "://".toList = true then ex.URL
        else "https://".toList ++ ex.URL) = "https://".toList ++ ex.URL
    rw [if_neg (by rw [h]; decide)]
  · have h2 : normalizeExtra (normalizeExtra ex)
        = { Name := (normalizeExtra ex).Name,
            URL := if strings.Contains (normalizeExtra ex).URL "://".toList = true
                   then (normalizeExtra ex).URL
                   else "https://".toList ++ (normalizeExtra ex).URL } := rfl
    rw [h2, if_pos hc]

/-- C19: `EffectiveEndpoints` returns `9 + len(extras)` endpoints: `core`, whose
URL is the returned control-plane URL, then the seven product intakes and `flare`
on the returned site, then the extras in input order with their names unchanged; an
extra's URL is kept when it contains `://` and gets `https://` in front otherwise,
so it always contains `://`, and normalizing twice is normalizing once. -/
theorem C19_catalog_composition (src : Sources) (readYAML : Str → Option (Str × Str))
    (extras : List Endpoint) :
    (EffectiveEndpoints src readYAML extras).1.length = 9 + extras.length ∧
    (EffectiveEndpoints src readYAML extras).1
      = fixedEndpoints (EffectiveEndpoints src readYAML extras).2.Site
          (EffectiveEndpoints src readYAML extras).2.DDURL ++ extras.map normalizeExtra ∧
    (EffectiveEndpoints src readYAML extras).1.map (fun ep => ep.Name)
      = ["core".toList, "dbm-metrics".toList, "ndm".toList, "snmp-traps".toList,
         "netpath".toList, "container-life".toList, "container-image".toList, "sbom".toList,
         "flare".toList] ++ extras.map (fun ex => ex.Name) ∧
    (∀ ex : Endpoint,
      (normalizeExtra ex).Name = ex.Name ∧
      (strings.Contains ex.URL "://".toList = true → (normalizeExtra ex).URL = ex.URL) ∧
      (strings.Contains ex.URL "://".toList = false →
        (normalizeExtra ex).URL = "https://".toList ++ ex.URL) ∧
      strings.Contains (normalizeExtra ex).URL "://".toList = true ∧
      normalizeExtra (normalizeExtra ex) = normalizeExtra ex) := by
  refine ⟨?_, EffectiveEndpoints_eq src readYAML extras, ?_, normalizeExtra_spec⟩
  · rw [EffectiveEndpoints_eq, List.length_append, List.length_map]
    rfl
  · rw [EffectiveEndpoints_eq, List.map_append, List.map_map]
    rfl

/-- C19 with an empty environment, no configuration store and the extras
`example.org` and `http://proxy.local:8080`: eleven endpoints, `core` at
`https://app.datadoghq.com`, the first extra at `https://example.org`. -/
theorem C19_catalog_composition_witness :
    (EffectiveEndpoints (sourcesOf [] none) (fun _ => none)
      [{ Name := "extra-1".toList, URL := "example.org".toList },
       { Name := "local".toList, URL := "http://proxy.local:8080".toList }]).1.length = 9 + 2 ∧
    (EffectiveEndpoints (sourcesOf [] none) (fun _ => none)
      [{ Name := "extra-1".toList, URL := "example.org".toList },
       { Name := "local".toList, URL := "http://proxy.local:8080".toList }]).1
      = fixedEndpoints "datadoghq.com".toList "https://app.datadoghq.com".toList ++
        [{ Name := "extra-1".toList, URL := "https://example.org".toList },
         { Name := "local".toList, URL := "http://proxy.local:8080".toList }] :=
  ⟨(C19_catalog_composition (sourcesOf [] none) (fun _ => none) _).1,
   (C19_catalog_composition (sourcesOf [] none) (fun _ => none) _).2.1.trans (by decide)⟩

/-! ## The prober's retry loop -/

theorem dialLoop_spec (dial : Nat → Option Str) (left : Nat) :
    ∀ (n : Nat) (e0 : Option Str),
      n ≤ (dialLoop dial left n e0).2 ∧
      (dialLoop dial left n e0).2 ≤ n + left ∧
      (∀ i, n ≤ i → i + 1 < (dialLoop dial left n e0).2 → dial i ≠ none) ∧
      (left ≠ 0 → n < (dialLoop dial left n e0).2) ∧
      (left ≠ 0 → (dialLoop dial left n e0).1 = dial ((dialLoop dial left n e0).2 - 1)) ∧
      (left ≠ 0 → (dialLoop dial left n e0).1 ≠ none →
        (dialLoop dial left n e0).2 = n + left) := by
  induction left with
  | zero =>
    intro n e0
    simp only [dialLoop, Nat.add_zero, le_refl, ne_eq, not_true_eq_false, false_implies,
      and_true, true_and]
    intro i h1 h2
    omega
  | succ left ih =>
    intro n e0
    cases hd : dial n with
    | none =>
      have hr : dialLoop dial (left + 1) n e0 = (none, n + 1) := by
        simp [dialLoop, hd]
      rw [hr]
      refine ⟨by simp, by simp, ?_, by simp, ?_, by simp⟩
      · intro i h1 h2
        simp only at h2
        omega
      · intro _
        simp [hd]
    | some err =>
      have hr : dialLoop dial (left + 1) n e0 = dialLoop dial left (n + 1) (some err) := by
        simp [dialLoop, hd]
      rw [hr]
      obtain ⟨a, b, c, d, e, f⟩ := ih (n + 1) (some err)
      refine ⟨by omega, by omega, ?_, fun _ => by omega, fun _ => ?_, fun _ hne => ?_⟩
      · intro i h1 h2
        by_cases hi : i = n
        · rw [hi, hd]
          simp
        · exact c i (by omega) h2
      · by_cases hl : left = 0
        · subst hl
          simp [dialLoop, hd]
        · exact e hl
      · by_cases hl : left = 0
        · subst hl
          simp [dialLoop]
        · have := f hl hne
          omega

theorem attempts_in_range (retries : Int) (hr : retries < maxInt) :
    (wrapInt64 ((if retries < 0 then 0 else retries) + 1)).toNat = (max retries 0).toNat + 1 := by
  unfold maxInt at hr
  unfold wrapInt64
  by_cases h : retries < 0
  · have hm : max retries 0 = 0 := max_eq_right (le_of_lt h)
    rw [if_pos h, hm]
    decide
  · have hm : max retries 0 = retries := max_eq_left (not_lt.mp h)
    rw [if_neg h, hm]
    have h0 : 0 ≤ retries := not_lt.mp h
    have e1 : (retries + 1 + 2 ^ 63) % 2 ^ 64 = retries + 1 + 2 ^ 63 :=
      Int.emod_eq_of_lt (by omega) (by omega)
    rw [e1]
    omega

theorem probeTargets_probed (upper : Char → Char) (parse : URLParser) (net : Network)
    (timeout retries : Int) (t : Str × Str) (targets : List (Str × Str)) (out : List Finding)
    (n : Nat) (u : URL) (addr : Str) (hparse : parse t.2 = some u) (hhost : u.Host ≠ [])
    (haddr : targetAddr net u = some addr) :
    probeTargets upper parse net timeout retries (t :: targets) out n =
      probeTargets upper parse net timeout retries targets
        (match (dialLoop (net.Dial timeout addr) (wrapInt64 (retries + 1)).toNat n none).1 with
          | none => out
          | some lastErr => out ++ [connectFailed upper t.1 addr lastErr])
        (dialLoop (net.Dial timeout addr) (wrapInt64 (retries + 1)).toNat n none).2 := by
  unfold targetAddr at haddr
  rw [probeTargets]
  simp only [hparse, hhost, if_false, haddr]
  cases (dialLoop (net.Dial timeout addr) (wrapInt64 (retries + 1)).toNat n none).1 with
  | none => rfl
  | some e => rfl

theorem bounded_retry_in_range (dial : Nat → Option Str) (retries : Int) (n : Nat)
    (hr : retries < maxInt) :
    n < (dialLoop dial (wrapInt64 ((if retries < 0 then 0 else retries) + 1)).toNat n none).2 ∧
    (dialLoop dial (wrapInt64 ((if retries < 0 then 0 else retries) + 1)).toNat n none).2
      ≤ n + ((max retries 0).toNat + 1) ∧
    (∀ i, n ≤ i →
      i + 1 < (dialLoop dial (wrapInt64 ((if retries < 0 then 0 else retries) + 1)).toNat n
        none).2 → dial i ≠ none) ∧
    ((dialLoop dial (wrapInt64 ((if retries < 0 then 0 else retries) + 1)).toNat n none).1 ≠ none ↔
      ∀ i, n ≤ i → i < n + ((max retries 0).toNat + 1) → dial i ≠ none) ∧
    (∀ e, (dialLoop dial (wrapInt64 ((if retries < 0 then 0 else retries) + 1)).toNat n none).1
        = some e → dial (n + (max retries 0).toNat) = some e) := by
  rw [attempts_in_range retries hr]
  obtain ⟨_, b, c, d, e, f⟩ := dialLoop_spec dial ((max retries 0).toNat + 1) n none
  have hne : (max retries 0).toNat + 1 ≠ 0 := by omega
  have d1 := d hne
  have e1 := e hne
  have f1 := f hne
  refine ⟨d1, b, c, ⟨fun h i h1 h2 => ?_, fun h => ?_⟩, fun err herr => ?_⟩
  · have h3 := f1 h
    by_cases hi : i + 1 < (dialLoop dial ((max retries 0).toNat + 1) n none).2
    · exact c i h1 hi
    · have hi2 : i = (dialLoop dial ((max retries 0).toNat + 1) n none).2 - 1 := by omega
      rw [hi2, ← e1]
      exact h
  · rw [e1]
    exact h _ (by omega) (by omega)
  · have h3 := f1 (by rw [herr]; simp)
    rw [e1, h3] at herr
    have h4 : n + ((max retries 0).toNat + 1) - 1 = n + (max retries 0).toNat := by omega
    rw [h4] at herr
    exact herr

/-- C17 at the largest `int`: with `retries` equal to it, `retries + 1` wraps
around to a negative number, the dial loop is not entered and an unreachable proxy
gives no dial and no finding; with `retries` 1 the same proxy gives exactly two
dials and the one red finding `proxy.https.connect_failed`. -/
theorem C17_retries_overflow_skips_dialing :
    ProbeProxyConnectivity plainTable unroutableParse refusingNet unroutableEffective 1000000
      maxInt = ([], 0) ∧
    ProbeProxyConnectivity plainTable unroutableParse refusingNet unroutableEffective 1000000 1
      = ([connectFailed plainTable "https".toList "10.255.255.1:9999".toList
          "connection refused".toList], 2) := by
  decide

/-! ## Conflict findings -/

theorem conflictFindings_eq (upper : Char → Char) (confs : List Conflict) :
    ∀ out : List Finding,
      conflictFindings upper confs out = out ++ confs.map (conflictFinding upper) := by
  induction confs with
  | nil => intro out; simp [conflictFindings]
  | cons c rest ih =>
    intro out
    rw [conflictFindings, ih]
    simp [conflictFinding]

theorem length_le_one_of_same {α β : Type} (f : α → β) (l : List α) (hnd : (l.map f).Nodup)
    (hsame : ∀ x ∈ l, ∀ y ∈ l, f x = f y) : l.length ≤ 1 := by
  match l, hnd, hsame with
  | [], _, _ => simp
  | [_], _, _ => simp
  | x :: y :: rest, hnd, hsame =>
    have hxy : f x = f y :=
      hsame x (List.mem_cons_self _ _) y (List.mem_cons_of_mem _ (List.mem_cons_self _ _))
    rw [List.map_cons, List.map_cons, List.nodup_cons] at hnd
    exact absurd (hxy ▸ List.mem_cons_self _ _) hnd.1

theorem collect_length_le_one (src : Sources) (key : Str)
    (hkey : key = "https".toList ∨ key = "http".toList)
    (hsame : ∀ vv ∈ keyCandidates src key, ∀ ww ∈ keyCandidates src key, vv.Value = ww.Value) :
    (collect src key).length ≤ 1 := by
  obtain ⟨a, b, _⟩ := collect_spec src key
  by_cases h : keyCandidates src key = []
  · have h1 := collectValues_length_le_one src key hkey h
    have h2 := a.length_le
    omega
  · rw [collectValues_of_two src key hkey h] at a
    exact length_le_one_of_same (fun vv => vv.Value) _ b
      (fun x hx y hy => hsame x (a.subset hx) y (a.subset hy))

theorem CollectConflicts_none (src : Sources) (eff : Effective)
    (hsame : ∀ key : Str, key = "https".toList ∨ key = "http".toList →
      ∀ vv ∈ keyCandidates src key, ∀ ww ∈ keyCandidates src key, vv.Value = ww.Value) :
    CollectConflicts src eff = [] := by
  rw [List.eq_nil_iff_forall_not_mem]
  intro c hc
  obtain ⟨hcase, hlen⟩ := (mem_CollectConflicts src eff c).mp hc
  rcases hcase with rfl | rfl
  · have := collect_length_le_one src _ (Or.inl rfl) (hsame _ (Or.inl rfl))
    simp only at hlen
    omega
  · have := collect_length_le_one src _ (Or.inr rfl) (hsame _ (Or.inr rfl))
    simp only at hlen
    omega

/-- C21: `lintConflicts` returns one finding for each conflict `CollectConflicts`
returns, in the same order; the finding of a conflict has the code `proxy.`, the
key, `.conflict`, severity yellow, and the conflict's values list as evidence; and
when for each key all the candidate values of the sources are the same,
`lintConflicts` returns no finding. -/
theorem C21_one_finding_per_conflict (upper : Char → Char) (src : Sources) (eff : Effective) :
    lintConflicts upper src eff = (CollectConflicts src eff).map (conflictFinding upper) ∧
    (lintConflicts upper src eff).length = (CollectConflicts src eff).length ∧
    (∀ c : Conflict,
      (conflictFinding upper c).Code = "proxy.".toList ++ c.Key ++ ".conflict".toList ∧
      (conflictFinding upper c).Severity = SeverityYellow ∧
      (conflictFinding upper c).Evidence = Evidence.values c.Values) ∧
    ((∀ key : Str, key = "https".toList ∨ key = "http".toList →
        ∀ vv ∈ keyCandidates src key, ∀ ww ∈ keyCandidates src key, vv.Value = ww.Value) →
      lintConflicts upper src eff = []) := by
  have h : lintConflicts upper src eff = (CollectConflicts src eff).map (conflictFinding upper) := by
    unfold lintConflicts
    rw [conflictFindings_eq, List.nil_append]
  refine ⟨h, by rw [h, List.length_map], fun _ => ⟨rfl, rfl, rfl⟩, fun hsame => ?_⟩
  rw [h, CollectConflicts_none src eff hsame, List.map_nil]

/-- C21 at `sampleSources`, where `https` has two values, and at
`lowercaseSources`, where the sources read for conflicts give `https` one value:
one finding `proxy.https.conflict` and no finding. -/
theorem C21_one_finding_per_conflict_witness :
    lintConflicts plainTable sampleSources (sampleEffective [] false)
      = [conflictFinding plainTable sampleConflict] ∧
    (conflictFinding plainTable sampleConflict).Code = "proxy.https.conflict".toList ∧
    lintConflicts plainTable lowercaseSources (sampleEffective [] false) = [] :=
  ⟨(C21_one_finding_per_conflict plainTable sampleSources (sampleEffective [] false)).1.trans
      (by decide),
   by decide,
   (C21_one_finding_per_conflict plainTable lowercaseSources (sampleEffective [] false)).2.2.2
      (by
        intro key hkey
        rcases hkey with rfl | rfl
        · decide
        · decide)⟩

/-! ## De-duplication of the tokens -/

theorem matchTokens_filter (table : Char → Char) (host port : Str) (nonExact : Bool)
    (check : EndpointCheck) (keep : Str → Bool) (l : List Str)
    (h : ∀ t ∈ l, keep t = false → tokenMatches table host port t nonExact = false) :
    matchTokens table host port nonExact (l.filter keep) check
      = matchTokens table host port nonExact l check := by
  induction l with
  | nil => rfl
  | cons x xs ih =>
    have hxs : ∀ t ∈ xs, keep t = false → tokenMatches table host port t nonExact = false :=
      fun t ht => h t (List.mem_cons_of_mem _ ht)
    by_cases hk : keep x = true
    · rw [List.filter_cons_of_pos hk]
      by_cases hm : tokenMatches table host port x nonExact = true
      · rw [matchTokens, if_pos hm, matchTokens, if_pos hm]
      · rw [matchTokens, if_neg hm, matchTokens, if_neg hm]
        exact ih hxs
    · rw [List.filter_cons_of_neg hk]
      have hm : tokenMatches table host port x nonExact = false :=
        h x (List.mem_cons_self _ _) (by simpa using hk)
      rw [ih hxs, matchTokens.eq_2, if_neg (by rw [hm]; decide)]

theorem matchTokens_firstSeen (table : Char → Char) (host port : Str) (nonExact : Bool)
    (check : EndpointCheck) (l : List Str) :
    matchTokens table host port nonExact (firstSeen l) check
      = matchTokens table host port nonExact l check := by
  induction l with
  | nil => rfl
  | cons x xs ih =>
    rw [firstSeen]
    by_cases hm : tokenMatches table host port x nonExact = true
    · rw [matchTokens, if_pos hm, matchTokens, if_pos hm]
    · rw [matchTokens, if_neg hm, matchTokens.eq_2, if_neg hm, ← ih]
      apply matchTokens_filter
      intro t _ hk
      have ht : t = x := by simpa using hk
      rw [ht]
      simpa using hm

theorem evaluateEndpoints_congr (table : Char → Char) (parse : URLParser)
    (tokens others : List Str) (nonExact : Bool)
    (h : ∀ (host port : Str) (check : EndpointCheck),
      matchTokens table host port nonExact tokens check
        = matchTokens table host port nonExact others check)
    (eps : List Endpoint) :
    ∀ matrix, evaluateEndpoints table parse tokens nonExact eps matrix
      = evaluateEndpoints table parse others nonExact eps matrix := by
  induction eps with
  | nil => intro matrix; rfl
  | cons ep eps ih =>
    intro matrix
    simp only [evaluateEndpoints]
    cases hp : parse ep.URL with
    | none => exact ih matrix
    | some u =>
      by_cases hh : u.Host = []
      · simp only [hh, if_true]
        exact ih matrix
      · simp only [hh, if_false]
        rw [h, ih]

/-- C22: the matrix `EvaluateNoProxy` returns, which matches against the
normalized token list with the later duplicates removed, equals the matrix obtained
by matching each endpoint against the normalized token list with the duplicates
kept, row for row and field for field. -/
theorem C22_deduplication_keeps_outcome (table : Char → Char) (parse : URLParser)
    (eff : Effective) (eps : List Endpoint) :
    EvaluateNoProxy table parse eff eps
      = EvaluateNoProxyKeepingDuplicates table parse eff eps := by
  unfold EvaluateNoProxy EvaluateNoProxyKeepingDuplicates
  rw [noProxyTokens_firstSeen]
  exact evaluateEndpoints_congr table parse _ _ _
    (fun host port check => matchTokens_firstSeen table host port _ check _) eps []

/-- C22 at an exclusion list that names `a.com` and `.example.com` twice each: the
token lists differ and the matrices are the same. -/
theorem C22_deduplication_keeps_outcome_witness :
    noProxyTokens plainTable (sampleEffective "a.com, .example.com, A.COM,.example.com".toList true)
      ≠ normalizedRawTokens plainTable
          (sampleEffective "a.com, .example.com, A.COM,.example.com".toList true) ∧
    EvaluateNoProxy plainTable sampleParse
        (sampleEffective "a.com, .example.com, A.COM,.example.com".toList true) sampleEndpoints
      = EvaluateNoProxyKeepingDuplicates plainTable sampleParse
        (sampleEffective "a.com, .example.com, A.COM,.example.com".toList true) sampleEndpoints :=
  ⟨by decide,
   C22_deduplication_keeps_outcome plainTable sampleParse
     (sampleEffective "a.com, .example.com, A.COM,.example.com".toList true) sampleEndpoints⟩

/-! ## IPv6 literals as tokens -/

theorem untrimmed_fixed (p : Char → Bool) (s : Str)
    (hfirst : ∀ c rest, s = c :: rest → p c = false)
    (hlast : ∀ init c, s = init ++ [c] → p c = false) :
    s.dropWhile p = s ∧ s.rdropWhile p = s := by
  constructor
  · cases s with
    | nil => rfl
    | cons c rest =>
      have h := hfirst c rest rfl
      simp [List.dropWhile_cons, h]
  · rcases List.eq_nil_or_concat s with h | ⟨init, c, h⟩
    · rw [h]
      exact List.rdropWhile_nil p
    · rw [List.concat_eq_append] at h
      have hc := hlast init c h
      rw [h]
      exact List.rdropWhile_concat_neg p init c (by simp [hc])

theorem Trim_length_le (s cutset : Str) : (strings.Trim s cutset).length ≤ s.length := by
  unfold strings.Trim
  exact ((List.dropWhile_sublist _).length_le).trans (List.rdropWhile_prefix _ _).length_le

theorem normalizeToken_plain (table : Char → Char) (host : Str)
    (hfirst : ∀ c rest, host = c :: rest → unicode.IsSpace c = false ∧ c ∉ ['[', ']'])
    (hlast : ∀ init c, host = init ++ [c] → unicode.IsSpace c = false ∧ c ∉ ['[', ']']) :
    normalizeToken table host = strings.ToLower table host := by
  obtain ⟨a, b⟩ := untrimmed_fixed unicode.IsSpace host (fun c rest h => (hfirst c rest h).1)
    (fun init c h => (hlast init c h).1)
  obtain ⟨c, d⟩ := untrimmed_fixed (fun x => decide (x ∈ ['[', ']'])) host
    (fun c rest h => by simpa using (hfirst c rest h).2)
    (fun init c h => by simpa using (hlast init c h).2)
  unfold normalizeToken strings.TrimSpace strings.Trim
  simp only [a, b, c, d]

theorem normalizeToken_bracketed (table : Char → Char) (host : Str) (hne : host ≠ [])
    (hfirst : ∀ c rest, host = c :: rest → unicode.IsSpace c = false ∧ c ∉ ['[', ']'])
    (hlast : ∀ init c, host = init ++ [c] → unicode.IsSpace c = false ∧ c ∉ ['[', ']']) :
    normalizeToken table ('[' :: host ++ [']']) = strings.ToLower table host := by
  obtain ⟨c, d⟩ := untrimmed_fixed (fun x => decide (x ∈ ['[', ']'])) host
    (fun c rest h => by simpa using (hfirst c rest h).2)
    (fun init c h => by simpa using (hlast init c h).2)
  have hsp : strings.TrimSpace ('[' :: host ++ [']']) = '[' :: host ++ [']'] := by
    unfold strings.TrimSpace
    have h1 : List.dropWhile unicode.IsSpace ('[' :: host ++ [']']) = '[' :: host ++ [']'] := by
      rw [List.cons_append, List.dropWhile_cons_of_neg (by decide)]
    rw [h1]
    exact List.rdropWhile_concat_neg unicode.IsSpace ('[' :: host) ']' (by decide)
  have htr : strings.Trim ('[' :: host ++ [']']) ['[', ']'] = host := by
    unfold strings.Trim
    rw [List.rdropWhile_concat_pos (fun c => decide (c ∈ ['[', ']'])) ('[' :: host) ']'
      (by decide)]
    rcases List.eq_nil_or_concat host with h | ⟨init, x, h⟩
    · exact absurd h hne
    · rw [List.concat_eq_append] at h
      have hx : ¬ (decide (x ∈ ['[', ']']) = true) := by simpa using (hlast init x h).2
      have h3 : '[' :: host = ('[' :: init) ++ [x] := by rw [h]; rfl
      rw [h3, List.rdropWhile_concat_neg (fun c => decide (c ∈ ['[', ']'])) ('[' :: init) x hx,
        ← h3, List.dropWhile_cons_of_pos (by decide)]
      exact c
  unfold normalizeToken
  simp only [hsp, htr]

theorem not_dot_of_ToLower (table : Char → Char)
    (hdot : ∀ c, unicode.ToLower table c = '.' → c = '.') (s : Str)
    (h : '.' ∈ strings.ToLower table s) : '.' ∈ s := by
  unfold strings.ToLower at h
  obtain ⟨c, hc, e⟩ := List.mem_map.mp h
  rw [← hdot c e]
  exact hc

theorem host_port_form_rejects (table : Char → Char)
    (hdot : ∀ c, unicode.ToLower table c = '.' → c = '.')
    (host a b port tok : Str) (nonExact : Bool)
    (hsplit : host = a ++ ':' :: b) (hb : b ≠ []) (hnodot : '.' ∉ host)
    (hnorm : normalizeToken table tok = strings.ToLower table host) :
    tokenMatches table host port tok nonExact = false := by
  have hcolon : unicode.ToLower table ':' = ':' := rfl
  have hL : strings.ToLower table host
      = strings.ToLower table a ++ ':' :: strings.ToLower table b := by
    rw [hsplit]
    simp [strings.ToLower, hcolon]
  have hlb : strings.ToLower table b ≠ [] := by
    intro h
    apply hb
    unfold strings.ToLower at h
    exact List.map_eq_nil_iff.mp h
  have hmem : ':' ∈ strings.ToLower table host := by
    rw [hL]
    exact List.mem_append_right _ (List.mem_cons_self _ _)
  obtain ⟨h, p, hhp, hh⟩ := List.eq_append_cons_of_mem hmem
  have hp : p ≠ [] := by
    have e : h ++ ':' :: p = strings.ToLower table a ++ ':' :: strings.ToLower table b := by
      rw [← hhp, hL]
    rcases List.append_eq_append_iff.mp e with ⟨x, _, e2⟩ | ⟨x, e1, e2⟩
    · cases x with
      | nil =>
        rw [List.nil_append] at e2
        rw [(List.cons.inj e2).2]
        exact hlb
      | cons y ys =>
        rw [List.cons_append] at e2
        rw [(List.cons.inj e2).2]
        simp
    · cases x with
      | nil =>
        rw [List.nil_append] at e2
        rw [← (List.cons.inj e2).2]
        exact hlb
      | cons y ys =>
        rw [List.cons_append] at e2
        exfalso
        apply hh
        rw [e1, ← (List.cons.inj e2).1]
        exact List.mem_append_right _ (List.mem_cons_self _ _)
  have hlen : (strings.Trim h ['[', ']']).length < (strings.ToLower table host).length := by
    have h1 := Trim_length_le h ['[', ']']
    have h2 : (strings.ToLower table host).length = h.length + (p.length + 1) := by
      rw [hhp, List.length_append, List.length_cons]
    omega
  have hne : ¬ strings.ToLower table host = strings.Trim h ['[', ']'] := by
    intro e
    rw [← e] at hlen
    exact Nat.lt_irrefl _ hlen
  have hdm : ¬ domainMatches table (strings.ToLower table host) (strings.Trim h ['[', ']'])
      = true := by
    rw [domainMatches_eq_true]
    rintro (e | e)
    · have e3 := congrArg List.length e
      simp only [strings.ToLower, List.length_map] at e3 hlen
      omega
    · have hd : '.' ∈ strings.ToLower table (strings.ToLower table host) :=
        e.subset (List.mem_cons_self _ _)
      exact hnodot (not_dot_of_ToLower table hdot _ (not_dot_of_ToLower table hdot _ hd))
  have hcut : strings.Cut (strings.ToLower table host) [':'] = (h, p, true) := by
    rw [hhp]
    exact Cut_colon h p hh
  simp only [tokenMatches, hnorm, hcut]
  simp [hp, hne, hdm]

theorem plainTable_dot (c : Char) (h : unicode.ToLower plainTable c = '.') : c = '.' := by
  unfold unicode.ToLower at h
  by_cases h1 : c.toNat ≤ 0x7F
  · by_cases h2 : 0x41 ≤ c.toNat ∧ c.toNat ≤ 0x5A
    · have h3 : (Char.ofNat (c.toNat + 0x20)).toNat = c.toNat + 0x20 :=
        toNat_ofNat_small _ (by omega)
      simp only [h1, h2, if_true, and_self] at h
      have h4 : (Char.ofNat (c.toNat + 0x20)).toNat = 46 := by rw [h]; rfl
      omega
    · simpa only [h1, h2, if_true, if_false] using h
  · simpa only [h1, if_false, plainTable] using h

/-- C23: a host without a dot, without white space or a bracket at either end, and
with a colon that is followed by at least one character, is matched neither by
itself as a token nor by itself in brackets, for every port and either mode: the
token is split at its first colon as a host:port token.  Lower-casing is taken to
turn nothing but a dot into a dot, as Unicode case mapping does. -/
theorem C23_ipv6_literal_never_matches (table : Char → Char)
    (hdot : ∀ c, unicode.ToLower table c = '.' → c = '.')
    (host a b port : Str) (nonExact : Bool)
    (hsplit : host = a ++ ':' :: b) (hb : b ≠ []) (hnodot : '.' ∉ host)
    (hfirst : ∀ c rest, host = c :: rest → unicode.IsSpace c = false ∧ c ∉ ['[', ']'])
    (hlast : ∀ init c, host = init ++ [c] → unicode.IsSpace c = false ∧ c ∉ ['[', ']']) :
    tokenMatches table host port host nonExact = false ∧
    tokenMatches table host port ('[' :: host ++ [']']) nonExact = false := by
  have hne : host ≠ [] := by
    rw [hsplit]
    simp
  exact ⟨host_port_form_rejects table hdot host a b port host nonExact hsplit hb hnodot
      (normalizeToken_plain table host hfirst hlast),
    host_port_form_rejects table hdot host a b port _ nonExact hsplit hb hnodot
      (normalizeToken_bracketed table host hne hfirst hlast)⟩

/-- C23 at the host `fe80::1`, in the non-exact mode: neither `fe80::1` nor
`[fe80::1]` matches it. -/
theorem C23_ipv6_literal_never_matches_witness :
    tokenMatches plainTable "fe80::1".toList "443".toList "fe80::1".toList true = false ∧
    tokenMatches plainTable "fe80::1".toList "443".toList "[fe80::1]".toList true = false :=
  C23_ipv6_literal_never_matches plainTable plainTable_dot "fe80::1".toList "fe80".toList
    ":1".toList "443".toList true (by decide) (by decide) (by decide)
    (fun c rest h => by
      have hc : c = 'f' := (List.cons.inj h).1.symm
      rw [hc]
      decide)
    (fun init c h => by
      have hc : c = '1' := by
        have h2 : "fe80::1".toList = "fe80::".toList ++ ['1'] := by decide
        rw [h2] at h
        exact (List.append_inj_right' h rfl |> List.cons.inj).1.symm
      rw [hc]
      decide)

end Proxy
